import Mathlib

/-!
Verification of the DOT towing-company verification pipeline (`dot.py`,
`parquet.py`) against its natural-language specification.

The Python source is shallowly embedded: strings are `List Char`, Python's
`str.lower`, `re` patterns used by the program, and the pure matcher
functions are translated directly from the source.  Regular expressions are
embedded as executable matchers specialised to the exact patterns appearing
in the source (word-boundary alternations, `\w+`, `.*`), with Python's
leftmost / first-alternative / greedy-`?` semantics.  The concurrent worker
pool is embedded as a transition system over the shared queue / in-flight /
processed state, and the per-record worker body (dot.py lines 375-462) as a
pure function of an oracle giving the outcome of each `process_company`
call.
-/

namespace DOT

/-- Python strings, modelled as lists of characters. -/
abbrev Str := List Char

/-- The apostrophe character (kept by `clean_company_name`'s character class). -/
def apos : Char := Char.ofNat 39

/-- Python `\w` (ASCII): letters, digits, underscore. -/
def isWordChar (c : Char) : Bool :=
  (decide ('a' ≤ c) && decide (c ≤ 'z')) ||
  (decide ('A' ≤ c) && decide (c ≤ 'Z')) ||
  (decide ('0' ≤ c) && decide (c ≤ '9')) ||
  c == '_'

/-- Python `\s` / `str.split()` whitespace (ASCII): space, tab, LF, VT, FF, CR. -/
def isSpc (c : Char) : Bool :=
  c == ' ' || c == '\t' || c == '\n' || c == Char.ofNat 11 || c == Char.ofNat 12 || c == '\r'

/-- Python `str.lower` on one character (ASCII). -/
def pyLower (c : Char) : Char :=
  if 'A' ≤ c ∧ c ≤ 'Z' then Char.ofNat (c.toNat + 32) else c

/-- Python `str.lower` on a string. -/
def lowerStr (s : Str) : Str := s.map pyLower

/-- Python `str.strip()` (both ends, whitespace). -/
def pyStrip (s : Str) : Str :=
  ((s.dropWhile isSpc).reverse.dropWhile isSpc).reverse

/-- `normalize_text` (dot.py lines 104-107): lower-case, delete every
character that is neither `\w` nor `\s`, then strip. -/
def normalize_text (t : Str) : Str :=
  pyStrip ((lowerStr t).filter (fun c => isWordChar c || isSpc c))

-- ---------------------------------------------------------------------------
-- Configuration constants (dot.py lines 35-68)
-- ---------------------------------------------------------------------------

/-- `STATE_NAMES` (dot.py lines 35-38). -/
def STATE_NAMES : List (Str × List Str) :=
  [("MA".toList, ["massachusetts".toList]),
   ("CT".toList, ["connecticut".toList]),
   ("RI".toList, ["rhode island".toList]),
   ("NH".toList, ["new hampshire".toList]),
   ("VT".toList, ["vermont".toList]),
   ("ME".toList, ["maine".toList]),
   ("NY".toList, ["new york".toList])]

/-- `SKIP_DOMAINS` (dot.py lines 40-43). -/
def SKIP_DOMAINS : List Str :=
  ["duck.ai".toList, "duckduckgo.com".toList, "bing.com".toList,
   "google.com".toList, "apple.com".toList, "apps.apple.com".toList,
   "maps.apple.com".toList, "webcache.googleusercontent.com".toList]

/-- `PRIORITY_DOMAINS` (dot.py lines 45-48). -/
def PRIORITY_DOMAINS : List Str :=
  ["facebook.com".toList, "yellowpages.com".toList, "mapquest.com".toList,
   "bbb.org".toList, "chamberofcommerce.com".toList, "manta.com".toList]

/-- `PRIMARY_TOW_KEYWORDS` (dot.py lines 50-58). -/
def PRIMARY_TOW_KEYWORDS : List Str :=
  ["towing service".toList, "tow truck".toList, "tow service".toList,
   "we tow".toList, "our towing".toList, "towing company".toList,
   "wrecker service".toList, "flatbed tow".toList, "24 hour tow".toList,
   "emergency towing".toList, "24/7 towing".toList, "local towing".toList,
   "towing rates".toList, "tow your".toList, "towing needs".toList,
   "professional towing".toList, "towing available".toList,
   "heavy duty towing".toList, "light duty towing".toList,
   "medium duty towing".toList, "roadside assistance".toList,
   "vehicle recovery".toList, "accident recovery".toList,
   "jump start".toList, "lockout service".toList, "winch out".toList,
   "winching".toList]

/-- `SECONDARY_TOW_KEYWORDS` (dot.py line 60). -/
def SECONDARY_TOW_KEYWORDS : List Str :=
  ["towing".toList, "tow".toList, "wrecker".toList, "wrecking".toList]

-- ---------------------------------------------------------------------------
-- Regex embedding for FALSE_POSITIVE_PATTERNS
-- ---------------------------------------------------------------------------

/-- A token of the regexes in `FALSE_POSITIVE_PATTERNS`: a literal string,
`\w+`, or `.*`. -/
inductive RTok where
  | lit (s : Str)
  | wordPlus
  | dotStar
deriving DecidableEq, Repr

/-- `\w+` then the continuation `k`: consume one or more word characters,
trying the continuation after each (backtracking). -/
def wpGo (k : Str → Bool) : Str → Bool
  | [] => false
  | c :: rest => isWordChar c && (k rest || wpGo k rest)

/-- `.*` then the continuation `k`: try the continuation at this position
or skip one non-newline character and repeat (backtracking). -/
def dsGo (k : Str → Bool) : Str → Bool
  | [] => k []
  | c :: rest => k (c :: rest) || (!(c == '\n') && dsGo k rest)

/-- Match a token list against the start of `cs` (Python `re` semantics:
`\w+` one-or-more word characters with backtracking, `.*` any characters
except newline with backtracking; a successful match may end anywhere). -/
def matchToks : List RTok → Str → Bool
  | [], _ => true
  | .lit s :: ts, cs => s.isPrefixOf cs && matchToks ts (cs.drop s.length)
  | .wordPlus :: ts, cs => wpGo (matchToks ts) cs
  | .dotStar :: ts, cs => dsGo (matchToks ts) cs

/-- Python `re.search`: try to match at every start position. -/
def rsearch (p : List RTok) : Str → Bool
  | [] => matchToks p []
  | c :: rest => matchToks p (c :: rest) || rsearch p rest

/-- `FALSE_POSITIVE_PATTERNS` (dot.py lines 62-68), embedded as token lists. -/
def FALSE_POSITIVE_PATTERNS : List (List RTok) :=
  [[.lit "towing in ".toList, .wordPlus],
   [.lit "towing near ".toList, .wordPlus],
   [.lit "towing services in ".toList, .wordPlus],
   [.wordPlus, .lit " towing companies".toList],
   [.lit "more towing".toList],
   [.lit "related".toList, .dotStar, .lit "towing".toList],
   [.lit "see more".toList, .dotStar, .lit "towing".toList],
   [.lit "other towing".toList],
   [.lit "find towing".toList],
   [.lit "search".toList, .dotStar, .lit "towing".toList],
   [.lit "browse".toList, .dotStar, .lit "towing".toList],
   [.lit "people also viewed".toList, .dotStar, .lit "towing".toList],
   [.lit "you might also like".toList, .dotStar, .lit "towing".toList],
   [.lit "similar".toList, .dotStar, .lit "towing".toList]]

-- ---------------------------------------------------------------------------
-- Matching logic (dot.py lines 137-171)
-- ---------------------------------------------------------------------------

/-- A business record (the columns of the census row that the matcher and
orchestrator read; remaining columns are passthrough). -/
structure Rec where
  dot : ℕ
  legal : Str
  dba : Option Str
  street : Str
  city : Str
  state : Str
  zip : Str
deriving DecidableEq, Repr

/-- `check_address_match` (dot.py lines 137-153). -/
def check_address_match (page_text : Str) (row : Rec) : Bool :=
  let page_lower := normalize_text page_text
  let city := normalize_text row.city
  let city_match := !city.isEmpty && decide (2 < city.length) && decide (city <:+: page_lower)
  let state_match :=
    match (STATE_NAMES.find? (fun p => p.1 == row.state)).map Prod.snd with
    | some vs => vs.any (fun v => decide (v <:+: page_lower))
    | none => false
  let zip_code := row.zip.take 5
  let zip_match := zip_code.length == 5 && zip_code.all Char.isDigit &&
      decide (zip_code <:+: page_text)
  let street_num := row.street.takeWhile Char.isDigit
  let street_match := decide (2 ≤ street_num.length) && decide (street_num <:+: page_text)
  (city_match && (zip_match || state_match)) || (zip_match && street_match)

/-- The cut-off index Python computes as `int(len(page_lower) * 0.6)`
(modelled as exact ⌊0.6·n⌋; the float rounding of `0.6` never moves the
cut-off for the text sizes at issue). -/
def cutoff60 (n : ℕ) : ℕ := 3 * n / 5

/-- `check_towing_mention` (dot.py lines 156-171).  The `for`-loop over the
false-positive patterns returns `False` exactly when some pattern matches
and no secondary keyword occurs in the first 60% of the lowered text, since
the inner condition does not depend on the pattern. -/
def check_towing_mention (page_text : Str) : Bool :=
  let page_lower := lowerStr page_text
  if PRIMARY_TOW_KEYWORDS.any (fun kw => decide (kw <:+: page_lower)) then true
  else if !(SECONDARY_TOW_KEYWORDS.any (fun kw => decide (kw <:+: page_lower))) then false
  else
    let first_portion := page_lower.take (cutoff60 page_lower.length)
    if FALSE_POSITIVE_PATTERNS.any (fun p => rsearch p page_lower) &&
       !(SECONDARY_TOW_KEYWORDS.any (fun kw => decide (kw <:+: first_portion))) then
      false
    else true

-- ---------------------------------------------------------------------------
-- URL utilities (dot.py lines 115-131)
-- ---------------------------------------------------------------------------

/-- `is_valid_url` (dot.py lines 115-119): non-empty, starts with `http`,
and contains no skip domain (case-insensitively). -/
def is_valid_url (url : Str) : Bool :=
  "http".toList.isPrefixOf url &&
    !(SKIP_DOMAINS.any (fun d => decide (d <:+: lowerStr url)))

/-- `get_domain_priority` inner loop: index of the first priority domain
contained in the lowered URL, else 100. -/
def domPriAux : List Str → ℕ → Str → ℕ
  | [], _, _ => 100
  | d :: ds, i, u => if d <:+: u then i else domPriAux ds (i + 1) u

/-- `get_domain_priority` (dot.py lines 122-127). -/
def get_domain_priority (url : Str) : ℕ :=
  domPriAux PRIORITY_DOMAINS 0 (lowerStr url)

/-- Stable insertion used to model Python's stable `sorted`: insert `x`
after every element whose key is `≤ key x`. -/
def insByKey (key : Str → ℕ) (x : Str) : List Str → List Str
  | [] => [x]
  | y :: ys => if key y ≤ key x then y :: insByKey key x ys else x :: y :: ys

/-- Stable sort by key (processing the input left to right), the behaviour
of Python's `sorted(·, key=...)` on a given iteration order. -/
def stableSortBy (key : Str → ℕ) (l : List Str) : List Str :=
  l.foldl (fun acc x => insByKey key x acc) []

/-- `sort_urls_by_priority` (dot.py lines 130-131) is
`sorted(set(urls), key=get_domain_priority)`.  CPython's `set` iteration
order over strings is unspecified (hash-randomised); it is modelled by the
parameter `setOrder`, constrained by `SetIter` below. -/
def sort_urls_by_priority (setOrder : List Str) : List Str :=
  stableSortBy get_domain_priority setOrder

/-- `setOrder` is a possible iteration order of `set(urls)`: duplicate-free
and with exactly the members of `urls`. -/
def SetIter (urls setOrder : List Str) : Prop :=
  setOrder.Nodup ∧ ∀ u, u ∈ setOrder ↔ u ∈ urls

-- ---------------------------------------------------------------------------
-- Search-result extraction (dot.py lines 205-231)
-- ---------------------------------------------------------------------------

/-- Fallback phase of `extract_urls_from_ddg` (dot.py lines 219-229): walk
the first 30 raw links, appending eligible not-yet-seen ones and stopping
as soon as the accumulated list reaches 12. -/
def extractFallback : List Str → List Str → List Str
  | [], urls => urls
  | l :: ls, urls =>
      if is_valid_url l && !urls.contains l then
        let urls' := urls ++ [l]
        if 12 ≤ urls'.length then urls' else extractFallback ls urls'
      else extractFallback ls urls

/-- `extract_urls_from_ddg` (dot.py lines 205-231).  `articles` is the list
of structured result containers, each being its list of `http` hrefs;
`allLinks` the page's raw hrefs.  Phase 1 takes the first eligible link of
each of the first 12 containers; the fallback phase runs only when phase 1
produced fewer than 5 URLs. -/
def extract_urls_from_ddg (articles : List (List Str)) (allLinks : List Str) : List Str :=
  let urls := (articles.take 12).filterMap (fun art => art.find? is_valid_url)
  if urls.length < 5 then extractFallback (allLinks.take 30) urls else urls

-- ---------------------------------------------------------------------------
-- clean_company_name (dot.py lines 95-101) and SUFFIX_PATTERN
-- ---------------------------------------------------------------------------

/-- The alternatives of `SUFFIX_PATTERN` (dot.py line 71), lower-cased, in
Python's alternation order. -/
def kwList : List Str :=
  ["inc".toList, "llc".toList, "corp".toList, "co".toList, "ltd".toList,
   "incorporated".toList, "corporation".toList]

/-- Case-insensitive literal match of `kw` (lower-case) at the start of `cs`. -/
def ciPref (kw cs : Str) : Bool := (cs.take kw.length).map pyLower == kw

/-- `\b` immediately before `cs`, given the previous character is a word
character: the next character must be absent or a non-word character. -/
def boundaryAt : Str → Bool
  | [] => true
  | d :: _ => !isWordChar d

/-- One alternative of `SUFFIX_PATTERN` tried at the start of `cs`
(the `\b` before `cs` is the caller's responsibility): `KW\.?\b` with the
greedy optional dot.  Returns the matched length. -/
def tryKw (kw cs : Str) : Option ℕ :=
  if ciPref kw cs then
    if (cs.drop kw.length).head? = some '.' then
      if ((cs.drop kw.length).tail.head?.elim false isWordChar) = true then
        some (kw.length + 1)
      else some kw.length
    else if ((cs.drop kw.length).head?.elim false isWordChar) = true then none
    else some kw.length
  else none

/-- `SUFFIX_PATTERN` tried at the start of `cs` (alternatives in order,
Python's leftmost-alternative preference). -/
def matchKw (cs : Str) : Option ℕ := kwList.findSome? (fun kw => tryKw kw cs)

/-- The scanner of `SUFFIX_PATTERN.sub('', ·)`: walk the string left to
right; at any position whose previous character is not a word character
(`skip = 0`, `p = false`), try the pattern and drop the matched characters
(`skip` counts characters of a match still to drop); otherwise keep the
character.  `p` records whether the previous character was a word
character, exactly re's `\b` state. -/
def subAuxS : ℕ → Bool → Str → Str
  | _ + 1, _, [] => []
  | skip + 1, _, c :: rest => subAuxS skip (isWordChar c) rest
  | 0, _, [] => []
  | 0, p, c :: rest =>
      if p then c :: subAuxS 0 (isWordChar c) rest
      else
        match matchKw (c :: rest) with
        | some n => subAuxS (n - 1) (isWordChar c) rest
        | none => c :: subAuxS 0 (isWordChar c) rest

/-- `SUFFIX_PATTERN.sub('', name)` (dot.py line 98). -/
def suffixSub (cs : Str) : Str := subAuxS 0 false cs

/-- `name.replace('&', 'and')` (dot.py line 99), per character. -/
def ampRep (c : Char) : Str := if c == '&' then ['a', 'n', 'd'] else [c]

/-- `re.sub(r"[^\w\s']", ' ', name)` (dot.py line 100), per character. -/
def punctSp (c : Char) : Char :=
  if isWordChar c || isSpc c || c == apos then c else ' '

/-- Python `str.split()` (split on whitespace runs, no empty words). -/
def splitWords : Str → List Str
  | [] => []
  | c :: rest =>
      if isSpc c then splitWords rest
      else
        match rest, splitWords rest with
        | d :: _, w :: ws => if isSpc d then [c] :: w :: ws else (c :: w) :: ws
        | _, _ => [[c]]

/-- Python `' '.join(·)`. -/
def joinWords : List Str → Str
  | [] => []
  | [w] => w
  | w :: ws => w ++ ' ' :: joinWords ws

/-- `clean_company_name` (dot.py lines 95-101).  Empty input (`not name`)
gives `none`; an empty cleaned result (`or None`) gives `none`. -/
def clean_company_name (cs : Str) : Option Str :=
  if cs.isEmpty then none
  else
    let s1 := suffixSub cs
    let s2 := s1.flatMap ampRep
    let s3 := s2.map punctSp
    let out := pyStrip (joinWords (splitWords s3))
    if out.isEmpty then none else some out

-- ---------------------------------------------------------------------------
-- TOW_NAME_PATTERN and has_tow_in_name (dot.py lines 70, 110-112)
-- ---------------------------------------------------------------------------

/-- The alternatives of `TOW_NAME_PATTERN` (dot.py line 70), lower-cased. -/
def towRoots : List Str :=
  ["tow".toList, "towing".toList, "tows".toList, "towed".toList,
   "wrecker".toList, "wrecking".toList]

/-- `TOW_NAME_PATTERN` tried at the start of `cs` (the `\b` before `cs` is
the caller's responsibility): some alternative matches case-insensitively
and is followed by a word boundary. -/
def towAt (cs : Str) : Bool :=
  towRoots.any (fun kw => ciPref kw cs && boundaryAt (cs.drop kw.length))

/-- `re.search` of `TOW_NAME_PATTERN`: scan every position whose previous
character is not a word character (`p` is the word-ness of the previous
character). -/
def towFindAux (p : Bool) : Str → Bool
  | [] => false
  | c :: rest => (!p && towAt (c :: rest)) || towFindAux (isWordChar c) rest

/-- `has_tow_in_name` (dot.py lines 110-112): searches
`f"{legal_name or ''} {dba_name or ''}"`. -/
def has_tow_in_name (legal_name : Str) (dba_name : Option Str) : Bool :=
  towFindAux false (legal_name ++ ' ' :: (dba_name.getD []))

-- ---------------------------------------------------------------------------
-- Worker model (dot.py lines 279-344 and 361-475)
-- ---------------------------------------------------------------------------

/-- Outcome of one `process_company` call (dot.py lines 279-344):
`restart` = `"DDG_RESTART"` (engine error page), `blocked` = `"DDG_BLOCKED"`,
`towingFound url` = `"TOWING_FOUND"` with the matched URL, `noUrls` =
`"NO_URLS"`, `noTowing` = `"NO_TOWING"`.  The worker body treats the three
last ones only through `== "TOWING_FOUND"`.  Since `process_company`
performs network I/O, a record's processing is modelled against an oracle
giving the outcome of the i-th `process_company` call. -/
inductive PCStatus where
  | restart
  | blocked
  | towingFound (url : Str)
  | noUrls
  | noTowing
deriving DecidableEq, Repr

/-- A per-name status after the restart loop, with `"DDG_RESTART"` already
converted to `"SKIPPED"` (dot.py lines 402-404 / 438-440). -/
inductive WStatus where
  | skipped
  | blocked
  | towingFound (url : Str)
  | noUrls
  | noTowing
deriving DecidableEq, Repr

/-- The `status = "SKIPPED"` conversion after the restart loop. -/
def convertStatus : PCStatus → WStatus
  | .restart => .skipped
  | .blocked => .blocked
  | .towingFound u => .towingFound u
  | .noUrls => .noUrls
  | .noTowing => .noTowing

/-- `website_found` as returned by `process_company`. -/
def urlOfW : WStatus → Option Str
  | .towingFound u => some u
  | _ => none

/-- `status == "TOWING_FOUND"`. -/
def isFoundW : WStatus → Bool
  | .towingFound _ => true
  | _ => false

/-- The restart loop (dot.py lines 391-400 / 427-436):
`while status == "DDG_RESTART" and current_restart_count < max_restarts`,
with `max_restarts = 3`.  Arguments: remaining budget (`3 - crc`), index of
the next `process_company` call, `current_restart_count`, current status.
Each iteration recycles the session once and re-calls `process_company`.
Returns (status, next call index, final restart count). -/
def phaseLoopB (oracle : ℕ → PCStatus) : ℕ → ℕ → ℕ → PCStatus → PCStatus × ℕ × ℕ
  | 0, k, crc, st => (st, k, crc)
  | b + 1, k, crc, st =>
      if st = PCStatus.restart then phaseLoopB oracle b (k + 1) (crc + 1) (oracle k)
      else (st, k, crc)

/-- One name's search phase: the initial `process_company` call (index `k`)
followed by the restart loop.  `crc` is `current_restart_count` entering
the phase (shared between the legal-name and DBA phases, dot.py line 382). -/
def runPhase (oracle : ℕ → PCStatus) (k crc : ℕ) : PCStatus × ℕ × ℕ :=
  phaseLoopB oracle (3 - crc) (k + 1) crc (oracle k)

/-- Final disposition of one record, in the spec's vocabulary. -/
inductive Disp where
  | found
  | notFound
  | skipped
  | blockedRetry
deriving DecidableEq, Repr

/-- Everything one pass of the worker body over a single record does to the
shared state (dot.py lines 375-469): which phases ran, whether the record
was re-queued (`"DDG_BLOCKED"`), whether `processed_dots.add` /
`stats['searched'] += 1` / `results_dict[dot] = ...` executed, the number
of session recycles, and the number of `process_company` calls. -/
structure RecTrace where
  legalStatus : Option WStatus
  dbaTried : Bool
  dbaStatus : Option WStatus
  requeued : Bool
  processed : Bool
  searchedDelta : ℕ
  foundDelta : ℕ
  resultUrl : Option Str
  recycles : ℕ
  calls : ℕ
  disposition : Disp
deriving DecidableEq, Repr

/-- The `"DDG_BLOCKED"` exit (dot.py lines 406-410 / 442-446): re-queue the
record and `continue` — the save block (lines 452-462) never runs. -/
def blockedTrace (ls ds : Option WStatus) (dbaTried : Bool) (crc k : ℕ) : RecTrace :=
  { legalStatus := ls, dbaTried := dbaTried, dbaStatus := ds, requeued := true,
    processed := false, searchedDelta := 0, foundDelta := 0, resultUrl := none,
    recycles := crc, calls := k, disposition := Disp.blockedRetry }

/-- The save block (dot.py lines 452-462): `stats['searched'] += 1`, the
results-dict write when towing was found, and `processed_dots.add`. -/
def finishTrace (ls ds : Option WStatus) (dbaTried found : Bool)
    (url : Option Str) (crc k : ℕ) : RecTrace :=
  { legalStatus := ls, dbaTried := dbaTried, dbaStatus := ds, requeued := false,
    processed := true, searchedDelta := 1, foundDelta := if found then 1 else 0,
    resultUrl := if found then url else none,
    recycles := crc, calls := k,
    disposition :=
      if found then Disp.found
      else match (if dbaTried then ds else ls) with
        | some WStatus.skipped => Disp.skipped
        | _ => Disp.notFound }

/-- The DBA block (dot.py lines 417-450) followed by the save block: runs
the DBA phase when a DBA name exists, cleans to something, and differs from
the cleaned legal name; entered only when towing was not found yet. -/
def dbaPart (r : Rec) (oracle : ℕ → PCStatus) (ls : Option WStatus)
    (k crc : ℕ) : RecTrace :=
  let noDba := finishTrace ls none false false none crc k
  match r.dba with
  | none => noDba
  | some d =>
      match clean_company_name d with
      | none => noDba
      | some cd =>
          if some cd ≠ clean_company_name r.legal then
            let res := runPhase oracle k crc
            let st := convertStatus res.1
            if st = WStatus.blocked then
              blockedTrace ls (some st) true res.2.2 res.2.1
            else
              finishTrace ls (some st) true (isFoundW st) (urlOfW st) res.2.2 res.2.1
          else noDba

/-- The worker body for one dequeued record (dot.py lines 375-462),
as a function of the `process_company` oracle: legal-name phase (when the
cleaned legal name is non-empty), then the DBA phase, then the save block;
`"DDG_BLOCKED"` in either phase re-queues the record and skips the rest. -/
def processRecord (r : Rec) (oracle : ℕ → PCStatus) : RecTrace :=
  match clean_company_name r.legal with
  | none => dbaPart r oracle none 0 0
  | some _ =>
      let res := runPhase oracle 0 0
      let st := convertStatus res.1
      if st = WStatus.blocked then
        blockedTrace (some st) none false res.2.2 res.2.1
      else if isFoundW st then
        finishTrace (some st) none false true (urlOfW st) res.2.2 res.2.1
      else
        dbaPart r oracle (some st) res.2.1 res.2.2

-- ---------------------------------------------------------------------------
-- Queue / processed-set transition system (dot.py lines 361-475, 576-604)
-- ---------------------------------------------------------------------------

/-- The shared run state: the work queue (front = next `get_nowait`), the
records currently held by workers, the processed identifiers in the order
`processed_dots.add` ran (the save block also bumps `stats['searched']` by
one under the same lock, so `processed.length` is the `searched` counter),
and the records abandoned by the worker's catch-all exception handler. -/
structure RunState where
  queue : List ℕ
  inflight : List ℕ
  processed : List ℕ
  lost : List ℕ
deriving DecidableEq, Repr

/-- One scheduler step of the worker pool.  `pop` is `queue.get_nowait()`
(line 371); `requeue` is the `"DDG_BLOCKED"` path `queue.put` + `continue`
(lines 406-410 / 442-446), after which the worker holds nothing; `complete`
is the locked save block (lines 452-462); `drop` is the catch-all
`except Exception` handler (lines 471-472), which only logs — the record
the worker held is neither re-queued nor saved, so it leaves the system.
Workers only exit on an empty queue, so a finished run has an empty queue
and nothing in flight. -/
inductive QStep : RunState → RunState → Prop
  | pop (i : ℕ) (q fl pr ls : List ℕ) :
      QStep ⟨i :: q, fl, pr, ls⟩ ⟨q, i :: fl, pr, ls⟩
  | requeue (i : ℕ) (q fl pr ls : List ℕ) (h : i ∈ fl) :
      QStep ⟨q, fl, pr, ls⟩ ⟨q ++ [i], fl.erase i, pr, ls⟩
  | complete (i : ℕ) (q fl pr ls : List ℕ) (h : i ∈ fl) :
      QStep ⟨q, fl, pr, ls⟩ ⟨q, fl.erase i, pr ++ [i], ls⟩
  | drop (i : ℕ) (q fl pr ls : List ℕ) (h : i ∈ fl) :
      QStep ⟨q, fl, pr, ls⟩ ⟨q, fl.erase i, pr, ls ++ [i]⟩

-- ---------------------------------------------------------------------------
-- main's auto-approve split (dot.py lines 506-580), fresh run
-- ---------------------------------------------------------------------------

/-- The auto-approve sentinel (dot.py line 554). -/
def AUTO_APPROVED : Str := "AUTO_APPROVED".toList

/-- `main`'s pre-queue phase on a fresh run (no checkpoint file, no
existing results; dot.py lines 527-569): split rows on `HAS_TOW_NAME`,
auto-approve the towing-named rows (results upsert keyed by DOT number,
`WEBSITE_URL = "AUTO_APPROVED"`, `processed_dots.add`), then build the
remaining search queue from the non-towing-named rows whose DOT number is
not already done.  Returns (results as an association list DOT ↦ matched
URL, processed DOT numbers, queued rows). -/
def mainSetup (rows : List Rec) : List (ℕ × Str) × List ℕ × List Rec :=
  let dfAuto := rows.filter (fun r => has_tow_in_name r.legal r.dba)
  let dfSearch := rows.filter (fun r => !has_tow_in_name r.legal r.dba)
  let rp := dfAuto.foldl
    (fun (acc : List (ℕ × Str) × List ℕ) r =>
      if (acc.1.lookup r.dot).isSome then acc
      else (acc.1 ++ [(r.dot, AUTO_APPROVED)], acc.2 ++ [r.dot]))
    ([], [])
  let alreadyDone := rp.2 ++ rp.1.map Prod.fst
  (rp.1, rp.2, dfSearch.filter (fun r => !alreadyDone.contains r.dot))

/-- The condition under which the worker enters the DBA phase's search
(dot.py lines 418-421): a DBA name exists, cleans to something, and its
cleaned form differs from the cleaned legal name. -/
def dbaEligible (r : Rec) : Bool :=
  match r.dba with
  | none => false
  | some d =>
      match clean_company_name d with
      | none => false
      | some cd => decide (some cd ≠ clean_company_name r.legal)

-- ---------------------------------------------------------------------------
-- Word-bounded case-insensitive occurrences (for the `\b...\b` patterns)
-- ---------------------------------------------------------------------------

/-- Left word-boundary check for an occurrence preceded by `pre`; at the
very start of the scanned string the flag `p` (word-ness of the virtual
preceding character) decides. -/
def nonWordLast (p : Bool) (pre : Str) : Bool :=
  match pre.getLast? with
  | none => !p
  | some c => !isWordChar c

/-- Right word-boundary check for an occurrence followed by `post`. -/
def nonWordHead (post : Str) : Bool :=
  match post.head? with
  | none => true
  | some c => !isWordChar c

/-- `ys` contains an occurrence of some alternative of `kws`,
case-insensitively, delimited by word boundaries on both sides (`p` is the
word-ness of the character virtually preceding `ys`).  This is exactly when
Python's `re.search` finds `\b(kw₁|…|kwₙ)\b` (IGNORECASE) in `ys`. -/
def BoundedOcc (kws : List Str) (p : Bool) (ys : Str) : Prop :=
  ∃ kw pre code post, kw ∈ kws ∧ ys = pre ++ code ++ post ∧
    code.map pyLower = kw ∧ nonWordLast p pre = true ∧ nonWordHead post = true

-- ===========================================================================
-- Theorems
-- ===========================================================================

-- ---------------------------------------------------------------------------
-- Claim C2: check_towing_mention
-- ---------------------------------------------------------------------------

/-- Claim C2: `check_towing_mention` returns true for every page text
containing the primary phrase "24/7 towing" (even with no false-positive
pattern present); and it returns false for every page text with no primary
phrase whose text matches a false-positive pattern while no secondary
keyword token occurs in the first 60% of the lowered text (in particular
when the only towing-keyword occurrences lie inside the directory-style
phrase itself, beyond the 60% mark). -/
theorem C2_mentions_service :
    (∀ t : Str, "24/7 towing".toList <:+: lowerStr t →
       check_towing_mention t = true) ∧
    (∀ t : Str,
       (∀ kw ∈ PRIMARY_TOW_KEYWORDS, ¬ (kw <:+: lowerStr t)) →
       (∃ p ∈ FALSE_POSITIVE_PATTERNS, rsearch p (lowerStr t) = true) →
       (∀ kw ∈ SECONDARY_TOW_KEYWORDS,
          ¬ (kw <:+: (lowerStr t).take (cutoff60 (lowerStr t).length))) →
       check_towing_mention t = false) := by
  constructor
  · intro t h
    have hp : PRIMARY_TOW_KEYWORDS.any (fun kw => decide (kw <:+: lowerStr t)) = true := by
      refine List.any_eq_true.mpr ⟨"24/7 towing".toList, ?_, by simpa using h⟩
      simp [PRIMARY_TOW_KEYWORDS]
    simp [check_towing_mention, hp]
  · intro t h1 h2 h3
    have hp : PRIMARY_TOW_KEYWORDS.any (fun kw => decide (kw <:+: lowerStr t)) = false := by
      simp only [List.any_eq_false]
      intro kw hkw
      simpa using h1 kw hkw
    have hfp : FALSE_POSITIVE_PATTERNS.any (fun p => rsearch p (lowerStr t)) = true := by
      obtain ⟨p, hpmem, hpr⟩ := h2
      exact List.any_eq_true.mpr ⟨p, hpmem, hpr⟩
    have h60 : SECONDARY_TOW_KEYWORDS.any
        (fun kw => decide (kw <:+: (lowerStr t).take (cutoff60 (lowerStr t).length))) = false := by
      simp only [List.any_eq_false]
      intro kw hkw
      simpa using h3 kw hkw
    by_cases hs : SECONDARY_TOW_KEYWORDS.any (fun kw => decide (kw <:+: lowerStr t)) = true
    · simp [check_towing_mention, hp, hfp, h60, hs]
    · simp only [Bool.not_eq_true] at hs
      simp [check_towing_mention, hp, hs]

set_option maxRecDepth 40000 in
/-- Witness for C2 at concrete inputs. -/
theorem C2_witness :
    check_towing_mention "we offer 24/7 towing".toList = true ∧
    check_towing_mention
      "aaaaaaaaaaaaaaaaaaaaaaaaaaaaaa related searches: towing near boston".toList = false :=
  ⟨C2_mentions_service.1 _ (by decide),
   C2_mentions_service.2 _ (by decide) (by decide) (by decide)⟩

-- ---------------------------------------------------------------------------
-- Claim C4: check_address_match
-- ---------------------------------------------------------------------------

/-- Claim C4, counterexample to the claim as stated: for the record with
city "LA" and postal code "90001", the page text "LA 90001" contains both
the record's city and its 5-digit postal code, yet `check_address_match`
returns false (the city token must be longer than 2 characters). -/
theorem C4_counterexample :
    ("LA".toList <:+: "LA 90001".toList) ∧
    (normalize_text "LA".toList <:+: normalize_text "LA 90001".toList) ∧
    (Rec.zip ⟨1, [], none, [], "LA".toList, "CA".toList, "90001".toList⟩).take 5 =
      "90001".toList ∧
    ("90001".toList <:+: "LA 90001".toList) ∧
    check_address_match "LA 90001".toList
      ⟨1, [], none, [], "LA".toList, "CA".toList, "90001".toList⟩ = false := by
  decide

/-- Claim C4 as amended: `check_address_match` is true for every record and
page text such that the page contains the record's city (whose normalized
form is longer than 2 characters) and the record's 5-digit postal code; and
it is false for every record and page text such that the page contains
neither the city nor the postal code. -/
theorem C4_address_match :
    (∀ (t : Str) (r : Rec),
       2 < (normalize_text r.city).length →
       normalize_text r.city <:+: normalize_text t →
       (r.zip.take 5).length = 5 →
       (r.zip.take 5).all Char.isDigit = true →
       r.zip.take 5 <:+: t →
       check_address_match t r = true) ∧
    (∀ (t : Str) (r : Rec),
       ¬ (normalize_text r.city <:+: normalize_text t) →
       ¬ (r.zip.take 5 <:+: t) →
       check_address_match t r = false) := by
  constructor
  · intro t r hlen hcity hzlen hzdig hzin
    have hne : (normalize_text r.city).isEmpty = false := by
      cases h : normalize_text r.city with
      | nil => rw [h] at hlen; simp at hlen
      | cons a l => simp [h]
    simp [check_address_match, hne, hlen, hcity, hzlen, hzdig, hzin]
  · intro t r hcity hzip
    simp [check_address_match, hcity, hzip]

/-- Witness for (the amended) C4 at concrete inputs. -/
theorem C4_witness :
    check_address_match "Visit us in Boston MA 02108 today".toList
      ⟨1, [], none, [], "Boston".toList, "XX".toList, "02108".toList⟩ = true ∧
    check_address_match "somewhere else entirely".toList
      ⟨1, [], none, [], "Boston".toList, "XX".toList, "02108".toList⟩ = false :=
  ⟨C4_address_match.1 _ _ (by decide) (by decide) (by decide) (by decide) (by decide),
   C4_address_match.2 _ _ (by decide) (by decide)⟩

-- ---------------------------------------------------------------------------
-- Claim C7: extract_urls_from_ddg
-- ---------------------------------------------------------------------------

/-- The fallback loop appends a duplicate-free block of eligible links
taken from `ls`, each new to the accumulator, and never grows a list of
fewer than 12 entries past 12. -/
theorem extractFallback_spec (ls : List Str) :
    ∀ urls, ∃ u2, extractFallback ls urls = urls ++ u2 ∧ u2.Nodup ∧
      (∀ u ∈ u2, u ∉ urls) ∧ (∀ u ∈ u2, u ∈ ls ∧ is_valid_url u = true) ∧
      (urls.length < 12 → (urls ++ u2).length ≤ 12) := by
  induction ls with
  | nil =>
      intro urls
      exact ⟨[], by simp [extractFallback], by simp, by simp, by simp, by intro h; simp; omega⟩
  | cons l ls ih =>
      intro urls
      by_cases hv : is_valid_url l = true ∧ l ∉ urls
      · by_cases hlen : 12 ≤ urls.length + 1
        · refine ⟨[l], ?_, by simp, ?_, ?_, ?_⟩
          · rw [extractFallback]
            rw [if_pos (by simpa using hv), if_pos (by simp; omega)]
          · simp only [List.mem_singleton]
            rintro u rfl
            exact hv.2
          · simp only [List.mem_singleton]
            rintro u rfl
            exact ⟨by simp, hv.1⟩
          · intro h
            simp only [List.length_append, List.length_singleton]
            omega
        · obtain ⟨u2, heq, hnd, hnew, hmem, hbd⟩ := ih (urls ++ [l])
          refine ⟨l :: u2, ?_, ?_, ?_, ?_, ?_⟩
          · rw [extractFallback]
            rw [if_pos (by simpa using hv), if_neg (by simp; omega)]
            rw [heq]
            simp
          · refine List.nodup_cons.mpr ⟨?_, hnd⟩
            intro hl
            exact hnew l hl (by simp)
          · intro u hu
            rcases List.mem_cons.mp hu with rfl | hu
            · exact hv.2
            · intro hin
              exact hnew u hu (by simp [hin])
          · intro u hu
            rcases List.mem_cons.mp hu with rfl | hu
            · exact ⟨by simp, hv.1⟩
            · exact ⟨by simp [(hmem u hu).1], (hmem u hu).2⟩
          · intro _
            have hle : (urls ++ [l]).length < 12 := by
              simp only [List.length_append, List.length_singleton]
              omega
            have := hbd hle
            simpa using this
      · obtain ⟨u2, heq, hnd, hnew, hmem, hbd⟩ := ih urls
        refine ⟨u2, ?_, hnd, hnew, ?_, hbd⟩
        · rw [extractFallback]
          rw [if_neg (by simpa using hv)]
          exact heq
        · intro u hu
          exact ⟨by simp [(hmem u hu).1], (hmem u hu).2⟩

/-- Claim C7, counterexample to the claim as stated: two structured result
containers whose first eligible link is the same URL produce that URL
twice — the structured-container phase does not deduplicate, so a Success
payload need not be duplicate-free. -/
theorem C7_counterexample :
    extract_urls_from_ddg
        [["http://example.com/a".toList], ["http://example.com/a".toList]] [] =
      ["http://example.com/a".toList, "http://example.com/a".toList] ∧
    ¬ (extract_urls_from_ddg
        [["http://example.com/a".toList], ["http://example.com/a".toList]] []).Nodup := by
  constructor
  · decide
  · decide

/-- Claim C7 as amended: the extracted URL sequence has at most 12 entries,
every entry is eligible, and it consists of the first eligible link of each
of the first 12 structured containers followed by a block of raw-page links
(first 30 scanned) that is itself duplicate-free and disjoint from the
container phase's output; the raw-link block is empty whenever the
container phase found 5 or more URLs.  (Deduplication holds only for the
fallback block; distinct containers may contribute equal URLs.) -/
theorem C7_extract_urls (articles : List (List Str)) (allLinks : List Str) :
    (extract_urls_from_ddg articles allLinks).length ≤ 12 ∧
    (∀ u ∈ extract_urls_from_ddg articles allLinks, is_valid_url u = true) ∧
    ∃ u2, extract_urls_from_ddg articles allLinks =
        (articles.take 12).filterMap (fun art => art.find? is_valid_url) ++ u2 ∧
      u2.Nodup ∧
      (∀ u ∈ u2, u ∉ (articles.take 12).filterMap (fun art => art.find? is_valid_url)) ∧
      (∀ u ∈ u2, u ∈ allLinks.take 30) ∧
      (5 ≤ ((articles.take 12).filterMap (fun art => art.find? is_valid_url)).length →
         u2 = []) := by
  set p1 := (articles.take 12).filterMap (fun art => art.find? is_valid_url) with hp1
  have hp1len : p1.length ≤ 12 := by
    calc p1.length ≤ (articles.take 12).length := List.length_filterMap_le _ _
    _ ≤ 12 := List.length_take_le _ _
  have hp1valid : ∀ u ∈ p1, is_valid_url u = true := by
    intro u hu
    rw [hp1] at hu
    obtain ⟨art, _, hfind⟩ := List.mem_filterMap.mp hu
    exact List.find?_some hfind
  by_cases h5 : p1.length < 5
  · obtain ⟨u2, heq, hnd, hnew, hmem, hbd⟩ := extractFallback_spec (allLinks.take 30) p1
    have hout : extract_urls_from_ddg articles allLinks = p1 ++ u2 := by
      rw [extract_urls_from_ddg]
      simp only [← hp1, if_pos h5]
      exact heq
    refine ⟨?_, ?_, u2, hout, hnd, hnew, ?_, ?_⟩
    · rw [hout]; exact hbd (by omega)
    · rw [hout]
      intro u hu
      rcases List.mem_append.mp hu with hu | hu
      · exact hp1valid u hu
      · exact (hmem u hu).2
    · intro u hu
      exact (hmem u hu).1
    · intro h; omega
  · have hout : extract_urls_from_ddg articles allLinks = p1 := by
      rw [extract_urls_from_ddg]
      simp only [← hp1, if_neg h5]
    refine ⟨by rw [hout]; exact hp1len, by rw [hout]; exact hp1valid, [], by simp [hout],
      by simp, by simp, by simp, fun _ => rfl⟩

/-- Witness for C7 at a concrete input (instantiating the theorem). -/
theorem C7_witness :
    (extract_urls_from_ddg [["http://example.com/a".toList]]
        ["http://example.com/b".toList]).length ≤ 12 :=
  (C7_extract_urls [["http://example.com/a".toList]] ["http://example.com/b".toList]).1

-- ---------------------------------------------------------------------------
-- Claim C3: EngineError retry ceiling
-- ---------------------------------------------------------------------------

/-- Claim C3, counterexample to the claim as stated: an oracle returning
`EngineError` on exactly the first three `process_company` calls (three
consecutive times) and succeeding-with-no-URLs on the fourth leaves the
record `NOT_FOUND`, not `SKIPPED`, after exactly 3 session recycles: the
worker performs the initial call plus up to 3 recycle-retries, so three
consecutive engine errors do not exhaust the ceiling. -/
theorem C3_counterexample :
    (∀ i < 3, (fun n => if n < 3 then PCStatus.restart else PCStatus.noUrls) i
       = PCStatus.restart) ∧
    (processRecord ⟨1001, "Acme Recovery".toList, none, [], [], [], []⟩
        (fun n => if n < 3 then PCStatus.restart else PCStatus.noUrls)).recycles = 3 ∧
    (processRecord ⟨1001, "Acme Recovery".toList, none, [], [], [], []⟩
        (fun n => if n < 3 then PCStatus.restart else PCStatus.noUrls)).disposition
      = Disp.notFound := by
  refine ⟨by decide, by decide, by decide⟩

/-- Claim C3 as amended: for a record whose cleaned legal name is non-empty
and whose every search attempt yields `EngineError` (so the initial attempt
plus all 3 recycle-retries — four consecutive engine errors), the final
disposition is `SKIPPED`, the session is recycled exactly 3 times, and at
least 4 `process_company` calls were made. -/
theorem C3_engine_error_skip (r : Rec) (oracle : ℕ → PCStatus) (nm : Str)
    (hclean : clean_company_name r.legal = some nm)
    (hor : ∀ i, oracle i = PCStatus.restart) :
    (processRecord r oracle).disposition = Disp.skipped ∧
    (processRecord r oracle).recycles = 3 ∧
    (processRecord r oracle).legalStatus = some WStatus.skipped ∧
    4 ≤ (processRecord r oracle).calls := by
  have hrun0 : runPhase oracle 0 0 = (PCStatus.restart, 4, 3) := by
    simp [runPhase, phaseLoopB, hor]
  have hrun43 : runPhase oracle 4 3 = (PCStatus.restart, 5, 3) := by
    simp [runPhase, phaseLoopB, hor]
  rw [processRecord, hclean]
  simp only [hrun0, convertStatus]
  rw [if_neg (by simp), if_neg (by simp [isFoundW])]
  rw [dbaPart]
  cases hdba : r.dba with
  | none => simp [finishTrace]
  | some d =>
      cases hcd : clean_company_name d with
      | none => simp [hcd, finishTrace]
      | some cd =>
          simp only [hcd]
          by_cases hne : some cd ≠ clean_company_name r.legal
          · rw [if_pos hne]
            simp only [hrun43, convertStatus]
            rw [if_neg (by simp)]
            simp [finishTrace, isFoundW]
          · rw [if_neg hne]
            simp [finishTrace]

/-- Witness for (the amended) C3 at a concrete record and oracle. -/
theorem C3_witness :
    (processRecord ⟨1001, "Acme Recovery".toList, none, [], [], [], []⟩
        (fun _ => PCStatus.restart)).disposition = Disp.skipped ∧
    (processRecord ⟨1001, "Acme Recovery".toList, none, [], [], [], []⟩
        (fun _ => PCStatus.restart)).recycles = 3 ∧
    (processRecord ⟨1001, "Acme Recovery".toList, none, [], [], [], []⟩
        (fun _ => PCStatus.restart)).legalStatus = some WStatus.skipped ∧
    4 ≤ (processRecord ⟨1001, "Acme Recovery".toList, none, [], [], [], []⟩
        (fun _ => PCStatus.restart)).calls :=
  C3_engine_error_skip _ _ "Acme Recovery".toList (by decide) (fun _ => rfl)

-- ---------------------------------------------------------------------------
-- Claim C9: alternate-name re-entry condition
-- ---------------------------------------------------------------------------

/-- Claim C9, counterexample to the claim as stated: a record whose
primary-name phase ends `SKIPPED` (engine errors past the ceiling) still
proceeds to the alternate-name search — `found_towing` is merely `False`
after the `status = "SKIPPED"` conversion, and the DBA block only checks
`found_towing`. -/
theorem C9_counterexample :
    (processRecord ⟨1002, "Acme Recovery".toList, some "Beta Services".toList,
        [], [], [], []⟩ (fun _ => PCStatus.restart)).legalStatus
      = some WStatus.skipped ∧
    (processRecord ⟨1002, "Acme Recovery".toList, some "Beta Services".toList,
        [], [], [], []⟩ (fun _ => PCStatus.restart)).dbaTried = true := by
  refine ⟨by decide, by decide⟩

/-- Claim C9 as amended: the search phase is re-entered with the cleaned
alternate name if and only if the primary phase neither found towing nor
was blocked (it ended `NOT_FOUND` or `SKIPPED`, or no primary search ran
because the cleaned legal name was empty) and a distinct cleaned alternate
name exists; a record whose primary attempt ends `FOUND` or
`BLOCKED_RETRY` never proceeds to the alternate name. -/
theorem C9_dba_reentry (r : Rec) (oracle : ℕ → PCStatus) :
    (processRecord r oracle).dbaTried = true ↔
      (((processRecord r oracle).legalStatus.all
          (fun s => !isFoundW s && !(s == WStatus.blocked))) = true ∧
       dbaEligible r = true) := by
  have hdba : ∀ ls k crc, (dbaPart r oracle ls k crc).dbaTried = dbaEligible r ∧
      (dbaPart r oracle ls k crc).legalStatus = ls := by
    intro ls k crc
    rw [dbaPart, dbaEligible]
    cases hd : r.dba with
    | none => simp [finishTrace]
    | some d =>
        cases hcd : clean_company_name d with
        | none => simp [hcd, finishTrace]
        | some cd =>
            simp only [hcd]
            by_cases hne : some cd ≠ clean_company_name r.legal
            · rw [if_pos hne]
              rcases hst : convertStatus (runPhase oracle k crc).1 with _ | _ | u | _ | _ <;>
                simp [hst, blockedTrace, finishTrace, hne]
            · rw [if_neg hne]
              simp only [finishTrace]
              simp [hne]
  rw [processRecord]
  cases hcl : clean_company_name r.legal with
  | none =>
      obtain ⟨h1, h2⟩ := hdba none 0 0
      rw [h1, h2]
      simp
  | some nm =>
      rcases hst : convertStatus (runPhase oracle 0 0).1 with _ | _ | u | _ | _
      · rw [if_neg (by simp [hst]), if_neg (by simp [hst, isFoundW])]
        obtain ⟨h1, h2⟩ := hdba (some WStatus.skipped) (runPhase oracle 0 0).2.1
          (runPhase oracle 0 0).2.2
        simp only [hst, h1, h2]
        simp [isFoundW]
      · rw [if_pos (by simp [hst])]
        simp [hst, blockedTrace]
      · rw [if_neg (by simp [hst]), if_pos (by simp [hst, isFoundW])]
        simp [hst, finishTrace, isFoundW]
      · rw [if_neg (by simp [hst]), if_neg (by simp [hst, isFoundW])]
        obtain ⟨h1, h2⟩ := hdba (some WStatus.noUrls) (runPhase oracle 0 0).2.1
          (runPhase oracle 0 0).2.2
        simp only [hst, h1, h2]
        simp [isFoundW]
      · rw [if_neg (by simp [hst]), if_neg (by simp [hst, isFoundW])]
        obtain ⟨h1, h2⟩ := hdba (some WStatus.noTowing) (runPhase oracle 0 0).2.1
          (runPhase oracle 0 0).2.2
        simp only [hst, h1, h2]
        simp [isFoundW]

-- ---------------------------------------------------------------------------
-- Claim C10: atomicity of the blocked path
-- ---------------------------------------------------------------------------

/-- Claim C10: whenever a record's disposition is `BLOCKED_RETRY`, the
worker re-queued the record and the save block never ran: no
`processed_dots.add`, no results-dict write, and no change to the
`searched` / `found_towing` counters. -/
theorem C10_blocked_atomic (r : Rec) (oracle : ℕ → PCStatus)
    (h : (processRecord r oracle).disposition = Disp.blockedRetry) :
    (processRecord r oracle).requeued = true ∧
    (processRecord r oracle).processed = false ∧
    (processRecord r oracle).resultUrl = none ∧
    (processRecord r oracle).searchedDelta = 0 ∧
    (processRecord r oracle).foundDelta = 0 := by
  have hfin : ∀ ls ds dbaTried found url crc k,
      (finishTrace ls ds dbaTried found url crc k).disposition ≠ Disp.blockedRetry := by
    intro ls ds dbaTried found url crc k
    rw [finishTrace]
    rcases found with _ | _
    · rcases hs : (if dbaTried then ds else ls) with _ | s
      · simp [hs]
      · rcases s <;> simp [hs]
    · simp
  have hchar : (∃ ls ds dt crc k, processRecord r oracle = blockedTrace ls ds dt crc k) ∨
      (∃ ls ds dt fn url crc k,
        processRecord r oracle = finishTrace ls ds dt fn url crc k) := by
    have hdbaChar : ∀ ls k crc,
        (∃ ds dt crc2 k2, dbaPart r oracle ls k crc = blockedTrace ls ds dt crc2 k2) ∨
        (∃ ds dt fn url crc2 k2,
          dbaPart r oracle ls k crc = finishTrace ls ds dt fn url crc2 k2) := by
      intro ls k crc
      simp only [dbaPart]
      cases hd : r.dba with
      | none => right; exact ⟨none, false, false, none, crc, k, rfl⟩
      | some d =>
          cases hcd : clean_company_name d with
          | none =>
              simp only [hcd]
              right
              exact ⟨none, false, false, none, crc, k, rfl⟩
          | some cd =>
              simp only [hcd]
              by_cases hne : some cd ≠ clean_company_name r.legal
              · rw [if_pos hne]
                by_cases hbl : convertStatus (runPhase oracle k crc).1 = WStatus.blocked
                · rw [if_pos hbl]
                  left
                  exact ⟨_, _, _, _, rfl⟩
                · rw [if_neg hbl]
                  right
                  exact ⟨_, _, _, _, _, _, rfl⟩
              · rw [if_neg hne]
                right
                exact ⟨none, false, false, none, crc, k, rfl⟩
    simp only [processRecord]
    cases hcl : clean_company_name r.legal with
    | none =>
        rcases hdbaChar none 0 0 with ⟨ds, dt, c2, k2, he⟩ | ⟨ds, dt, fn, url, c2, k2, he⟩
        · left; exact ⟨none, ds, dt, c2, k2, he⟩
        · right; exact ⟨none, ds, dt, fn, url, c2, k2, he⟩
    | some nm =>
        simp only [hcl]
        by_cases hbl : convertStatus (runPhase oracle 0 0).1 = WStatus.blocked
        · rw [if_pos hbl]
          left
          exact ⟨_, _, _, _, _, rfl⟩
        · rw [if_neg hbl]
          by_cases hf : isFoundW (convertStatus (runPhase oracle 0 0).1) = true
          · rw [if_pos hf]
            right
            exact ⟨_, _, _, _, _, _, _, rfl⟩
          · rw [if_neg hf]
            rcases hdbaChar (some (convertStatus (runPhase oracle 0 0).1))
                (runPhase oracle 0 0).2.1 (runPhase oracle 0 0).2.2 with
              ⟨ds, dt, c2, k2, he⟩ | ⟨ds, dt, fn, url, c2, k2, he⟩
            · left; exact ⟨_, ds, dt, c2, k2, he⟩
            · right; exact ⟨_, ds, dt, fn, url, c2, k2, he⟩
  rcases hchar with ⟨ls, ds, dt, crc, k, heq⟩ | ⟨ls, ds, dt, fn, url, crc, k, heq⟩
  · rw [heq]
    simp [blockedTrace]
  · rw [heq] at h
    exact absurd h (hfin _ _ _ _ _ _ _)

/-- Witness for C10 at a concrete blocked record. -/
theorem C10_witness :
    (processRecord ⟨1003, "Acme Recovery".toList, none, [], [], [], []⟩
        (fun _ => PCStatus.blocked)).requeued = true ∧
    (processRecord ⟨1003, "Acme Recovery".toList, none, [], [], [], []⟩
        (fun _ => PCStatus.blocked)).processed = false ∧
    (processRecord ⟨1003, "Acme Recovery".toList, none, [], [], [], []⟩
        (fun _ => PCStatus.blocked)).resultUrl = none ∧
    (processRecord ⟨1003, "Acme Recovery".toList, none, [], [], [], []⟩
        (fun _ => PCStatus.blocked)).searchedDelta = 0 ∧
    (processRecord ⟨1003, "Acme Recovery".toList, none, [], [], [], []⟩
        (fun _ => PCStatus.blocked)).foundDelta = 0 :=
  C10_blocked_atomic _ _ (by decide)

-- ---------------------------------------------------------------------------
-- Claim C6: sort_urls_by_priority
-- ---------------------------------------------------------------------------

theorem insByKey_perm (key : Str → ℕ) (x : Str) (l : List Str) :
    (insByKey key x l).Perm (x :: l) := by
  induction l with
  | nil => simp [insByKey]
  | cons y ys ih =>
      rw [insByKey]
      by_cases h : key y ≤ key x
      · rw [if_pos h]
        exact (ih.cons y).trans (List.Perm.swap x y ys)
      · rw [if_neg h]

theorem insByKey_sorted (key : Str → ℕ) (x : Str) (l : List Str)
    (h : l.Pairwise (fun a b => key a ≤ key b)) :
    (insByKey key x l).Pairwise (fun a b => key a ≤ key b) := by
  induction l with
  | nil => simp [insByKey]
  | cons y ys ih =>
      rw [insByKey]
      rcases List.pairwise_cons.mp h with ⟨hy, hys⟩
      by_cases hk : key y ≤ key x
      · rw [if_pos hk]
        refine List.pairwise_cons.mpr ⟨?_, ih hys⟩
        intro b hb
        rcases List.mem_cons.mp ((insByKey_perm key x ys).mem_iff.mp hb) with rfl | hb'
        · exact hk
        · exact hy b hb'
      · rw [if_neg hk]
        push_neg at hk
        refine List.pairwise_cons.mpr ⟨?_, h⟩
        intro b hb
        rcases List.mem_cons.mp hb with rfl | hb'
        · omega
        · exact le_trans (le_of_lt hk) (hy b hb')

theorem insByKey_filter_eq (key : Str → ℕ) (x : Str) (l : List Str) (k : ℕ)
    (hs : l.Pairwise (fun a b => key a ≤ key b)) (hx : key x = k) :
    (insByKey key x l).filter (fun z => key z == k) =
      l.filter (fun z => key z == k) ++ [x] := by
  induction l with
  | nil => simp [insByKey, hx]
  | cons y ys ih =>
      rcases List.pairwise_cons.mp hs with ⟨hy, hys⟩
      rw [insByKey]
      by_cases hk : key y ≤ key x
      · rw [if_pos hk]
        rw [List.filter_cons, List.filter_cons]
        by_cases hyk : (key y == k) = true
        · simp only [hyk, if_true, ih hys]
          simp
        · simp only [hyk, Bool.false_eq_true, if_false, ih hys]
      · rw [if_neg hk]
        push_neg at hk
        have hnil : (y :: ys).filter (fun z => key z == k) = [] := by
          rw [List.filter_eq_nil_iff]
          intro b hb
          rcases List.mem_cons.mp hb with rfl | hb'
          · simp only [beq_iff_eq]
            omega
          · have := hy b hb'
            simp only [beq_iff_eq]
            omega
        rw [List.filter_cons]
        simp [hx, hnil]

theorem insByKey_filter_ne (key : Str → ℕ) (x : Str) (l : List Str) (k : ℕ)
    (hx : key x ≠ k) :
    (insByKey key x l).filter (fun z => key z == k) =
      l.filter (fun z => key z == k) := by
  induction l with
  | nil => simp [insByKey, hx]
  | cons y ys ih =>
      rw [insByKey]
      by_cases hk : key y ≤ key x
      · rw [if_pos hk, List.filter_cons, List.filter_cons]
        rw [ih]
      · rw [if_neg hk, List.filter_cons]
        simp [hx]

theorem stableSortBy_spec (key : Str → ℕ) (l : List Str) :
    ∀ acc, acc.Pairwise (fun a b => key a ≤ key b) →
      (l.foldl (fun acc x => insByKey key x acc) acc).Pairwise
        (fun a b => key a ≤ key b) ∧
      (l.foldl (fun acc x => insByKey key x acc) acc).Perm (acc ++ l) ∧
      ∀ k, (l.foldl (fun acc x => insByKey key x acc) acc).filter
          (fun z => key z == k) =
        acc.filter (fun z => key z == k) ++ l.filter (fun z => key z == k) := by
  induction l with
  | nil => intro acc hacc; exact ⟨hacc, by simp, by simp⟩
  | cons x xs ih =>
      intro acc hacc
      obtain ⟨hs, hp, hf⟩ := ih (insByKey key x acc) (insByKey_sorted key x acc hacc)
      have h1 : (insByKey key x acc ++ xs).Perm ((x :: acc) ++ xs) :=
        (insByKey_perm key x acc).append_right xs
      have h2 : ((x :: acc) ++ xs).Perm (acc ++ x :: xs) := by
        have h3 := (@List.perm_middle _ x acc xs).symm
        simpa using h3
      refine ⟨hs, ?_, ?_⟩
      · simp only [List.foldl_cons]
        exact hp.trans (h1.trans h2)
      · intro k
        simp only [List.foldl_cons]
        rw [hf k, List.filter_cons]
        by_cases hx : key x = k
        · rw [insByKey_filter_eq key x acc k hacc hx]
          simp [hx]
        · rw [insByKey_filter_ne key x acc k hx]
          simp [hx]

/-- Claim C6, counterexample to the claim as stated: Python's `set(urls)`
iteration order is unspecified (string hashing is randomised per process),
so nothing guarantees that the non-priority URLs keep their relative input
order.  Taking the reversed order as the set-iteration order — a legal one,
being duplicate-free with the same members — the stable sort keeps that
reversed order for the two equal-priority URLs, violating input-order
stability. -/
theorem C6_counterexample :
    SetIter ["http://zzz.example/1".toList, "http://zzz.example/2".toList]
      ["http://zzz.example/2".toList, "http://zzz.example/1".toList] ∧
    get_domain_priority "http://zzz.example/1".toList = 100 ∧
    get_domain_priority "http://zzz.example/2".toList = 100 ∧
    sort_urls_by_priority
        ["http://zzz.example/2".toList, "http://zzz.example/1".toList] =
      ["http://zzz.example/2".toList, "http://zzz.example/1".toList] := by
  refine ⟨⟨by decide, ?_⟩, by decide, by decide, by decide⟩
  intro u
  simp only [List.mem_cons, List.not_mem_nil, or_false]
  tauto

/-- Claim C6 as amended: for any legal iteration order of `set(urls)`, the
result of `sort_urls_by_priority` is a permutation of it, duplicate-free
with exactly the members of `urls` (exact duplicates removed), ordered by
non-decreasing domain priority (so every URL matching a priority domain,
priority < 100, precedes every URL matching none, priority 100), and URLs
of equal priority — in particular the non-priority ones — keep their
relative order in the set-iteration order (not necessarily the input
order, which `set` does not preserve). -/
theorem C6_rank_by_priority (urls setOrder : List Str) (h : SetIter urls setOrder) :
    (sort_urls_by_priority setOrder).Perm setOrder ∧
    (sort_urls_by_priority setOrder).Nodup ∧
    (∀ u, u ∈ sort_urls_by_priority setOrder ↔ u ∈ urls) ∧
    (sort_urls_by_priority setOrder).Pairwise
      (fun a b => get_domain_priority a ≤ get_domain_priority b) ∧
    ∀ k, (sort_urls_by_priority setOrder).filter
        (fun u => get_domain_priority u == k) =
      setOrder.filter (fun u => get_domain_priority u == k) := by
  obtain ⟨hnd, hmem⟩ := h
  obtain ⟨hs, hp, hf⟩ := stableSortBy_spec get_domain_priority setOrder [] (by simp)
  have hperm : (sort_urls_by_priority setOrder).Perm setOrder := by
    simpa [sort_urls_by_priority, stableSortBy] using hp
  refine ⟨hperm, hperm.nodup_iff.mpr hnd, ?_, ?_, ?_⟩
  · intro u
    rw [hperm.mem_iff]
    exact hmem u
  · simpa [sort_urls_by_priority, stableSortBy] using hs
  · intro k
    simpa [sort_urls_by_priority, stableSortBy] using hf k

/-- Witness for (the amended) C6 at a concrete input. -/
theorem C6_witness :
    (sort_urls_by_priority
        ["http://zzz.example/1".toList, "http://bbb.org/x".toList]).Nodup :=
  (C6_rank_by_priority ["http://bbb.org/x".toList, "http://zzz.example/1".toList]
    ["http://zzz.example/1".toList, "http://bbb.org/x".toList]
    ⟨by decide, by
      intro u
      simp only [List.mem_cons, List.not_mem_nil, or_false]
      tauto⟩).2.1

-- ---------------------------------------------------------------------------
-- Claim C1: no record lost or double-processed
-- ---------------------------------------------------------------------------

theorem QStep_perm {s t : RunState} (h : QStep s t) :
    (t.queue ++ t.inflight ++ t.processed ++ t.lost).Perm
      (s.queue ++ s.inflight ++ s.processed ++ s.lost) := by
  cases h with
  | pop i q fl pr ls =>
      simpa using (@List.perm_middle ℕ i q (fl ++ (pr ++ ls)))
  | requeue i q fl pr ls hmem =>
      simp only [List.append_assoc]
      refine List.Perm.append_left q ?_
      have h2 := (List.perm_cons_erase hmem).symm.append_right (pr ++ ls)
      simpa using h2
  | complete i q fl pr ls hmem =>
      simp only [List.append_assoc]
      refine List.Perm.append_left q ?_
      have h1 : (pr ++ ([i] ++ ls)).Perm (i :: (pr ++ ls)) := List.perm_middle
      have h2 : (fl.erase i ++ (i :: (pr ++ ls))).Perm
          (i :: (fl.erase i ++ (pr ++ ls))) := List.perm_middle
      have h3 := (List.perm_cons_erase hmem).symm.append_right (pr ++ ls)
      have h4 : (i :: (fl.erase i ++ (pr ++ ls))).Perm (fl ++ (pr ++ ls)) := h3
      exact ((List.Perm.append_left (fl.erase i) h1).trans h2).trans h4
  | drop i q fl pr ls hmem =>
      simp only [List.append_assoc]
      refine List.Perm.append_left q ?_
      have h0 : (ls ++ [i]).Perm (i :: ls) := List.perm_append_comm
      have h1 : (pr ++ (ls ++ [i])).Perm (i :: (pr ++ ls)) :=
        (List.Perm.append_left pr h0).trans List.perm_middle
      have h2 : (fl.erase i ++ (i :: (pr ++ ls))).Perm
          (i :: (fl.erase i ++ (pr ++ ls))) := List.perm_middle
      have h3 := (List.perm_cons_erase hmem).symm.append_right (pr ++ ls)
      have h4 : (i :: (fl.erase i ++ (pr ++ ls))).Perm (fl ++ (pr ++ ls)) := h3
      exact ((List.Perm.append_left (fl.erase i) h1).trans h2).trans h4

theorem QSteps_perm {s t : RunState} (h : Relation.ReflTransGen QStep s t) :
    (t.queue ++ t.inflight ++ t.processed ++ t.lost).Perm
      (s.queue ++ s.inflight ++ s.processed ++ s.lost) := by
  induction h with
  | refl => exact List.Perm.refl _
  | tail _ hstep ih => exact ((QStep_perm hstep).trans ih)

/-- Counterexample to C1 as stated: the worker body's catch-all
`except Exception` handler (dot.py lines 471-472) only logs, so a record
whose processing raises is neither re-queued nor saved.  A one-record run
can pop the record, lose it to the handler, and finish (empty queue,
nothing in flight) with an empty processed sequence — record 7 never
enters the ProcessedSet. -/
theorem C1_counterexample :
    Relation.ReflTransGen QStep ⟨[7], [], [], []⟩ ⟨[], [], [], [7]⟩ ∧
    (7 : ℕ) ∉ ([] : List ℕ) ∧ ¬ ([] : List ℕ).Perm [7] :=
  ⟨Relation.ReflTransGen.head (QStep.pop 7 [] [] [] [])
    (Relation.ReflTransGen.head (QStep.drop 7 [] [7] [] [] (by decide))
      Relation.ReflTransGen.refl),
   by decide, by decide⟩

/-- Claim C1 (amended): for every initial Work Queue of records with
distinct identifiers, any completed run — the queue empty and no record in
flight, which is exactly how the workers exit — in which no worker
iteration hit the catch-all exception handler (dot.py lines 471-472; the
`lost` component stays empty) has a processed sequence that is a
permutation of the initial identifiers: every identifier entered the
ProcessedSet, each exactly once (the save block ran exactly once per
record), and the number of additions (= the `searched` counter) equals N,
however many `BLOCKED_RETRY` re-queue steps the trace contains.  Without
that proviso a record can be lost (`C1_counterexample`). -/
theorem C1_no_loss (ids pr : List ℕ) (hnd : ids.Nodup)
    (h : Relation.ReflTransGen QStep ⟨ids, [], [], []⟩ ⟨[], [], pr, []⟩) :
    pr.Perm ids ∧ pr.Nodup ∧ pr.length = ids.length ∧
    ∀ i ∈ ids, pr.count i = 1 := by
  have hperm : pr.Perm ids := by simpa using QSteps_perm h
  refine ⟨hperm, hperm.nodup_iff.mpr hnd, hperm.length_eq, ?_⟩
  intro i hi
  rw [hperm.count_eq]
  exact List.count_eq_one_of_mem hnd hi

/-- Witness for C1: a 2-record exception-free run in which record 5 is
popped, re-queued once (`BLOCKED_RETRY`), and completed after record 7. -/
theorem C1_witness :
    ([7, 5] : List ℕ).Perm [5, 7] ∧ ([7, 5] : List ℕ).Nodup ∧
    ([7, 5] : List ℕ).length = ([5, 7] : List ℕ).length ∧
    ∀ i ∈ ([5, 7] : List ℕ), ([7, 5] : List ℕ).count i = 1 :=
  C1_no_loss [5, 7] [7, 5] (by decide)
    (Relation.ReflTransGen.head (QStep.pop 5 [7] [] [] [])
      (Relation.ReflTransGen.head (QStep.requeue 5 [7] [5] [] [] (by decide))
        (Relation.ReflTransGen.head (QStep.pop 7 [5] [] [] [])
          (Relation.ReflTransGen.head (QStep.complete 7 [5] [7] [] [] (by decide))
            (Relation.ReflTransGen.head (QStep.pop 5 [] [] [7] [])
              (Relation.ReflTransGen.head
                (QStep.complete 5 [] [5] [7] [] (by decide))
                Relation.ReflTransGen.refl))))))

-- ---------------------------------------------------------------------------
-- Word-boundary occurrence lemmas
-- ---------------------------------------------------------------------------

theorem isWordChar_pyLower (c : Char) :
    isWordChar (pyLower c) = true → isWordChar c = true := by
  by_cases h : 'A' ≤ c ∧ c ≤ 'Z'
  · intro _
    simp [isWordChar, h.1, h.2]
  · rw [pyLower, if_neg h]
    exact id

theorem code_word_of_map {kw code : Str} (hmap : code.map pyLower = kw)
    (hkw : ∀ k ∈ kw, isWordChar k = true) :
    ∀ c ∈ code, isWordChar c = true := by
  intro c hc
  exact isWordChar_pyLower c (hkw _ (hmap ▸ List.mem_map_of_mem pyLower hc))

/-- Prepending a character turns an occurrence relative to that character's
word-ness into an occurrence of the longer string. -/
theorem boundedOcc_cons {kws : List Str} {c : Char} {ys : Str} (q : Bool)
    (h : BoundedOcc kws (isWordChar c) ys) : BoundedOcc kws q (c :: ys) := by
  obtain ⟨kw, pre, code, post, hmem, heq, hmap, hL, hR⟩ := h
  refine ⟨kw, c :: pre, code, post, hmem, by rw [heq]; rfl, hmap, ?_, hR⟩
  cases pre with
  | nil =>
      rw [nonWordLast] at hL ⊢
      simpa using hL
  | cons a pre' =>
      rw [nonWordLast] at hL ⊢
      rwa [List.getLast?_cons_cons]

theorem boundaryAt_eq_nonWordHead (post : Str) :
    boundaryAt post = nonWordHead post := by
  cases post <;> rfl

/-- An occurrence extends to the right through appended text starting with
a non-word character. -/
theorem boundedOcc_append {kws : List Str} {p : Bool} {ys : Str} (c : Char)
    (zs : Str) (hc : isWordChar c = false) (h : BoundedOcc kws p ys) :
    BoundedOcc kws p (ys ++ c :: zs) := by
  obtain ⟨kw, pre, code, post, hmem, heq, hmap, hL, hR⟩ := h
  refine ⟨kw, pre, code, post ++ c :: zs, hmem, by rw [heq]; simp, hmap, hL, ?_⟩
  cases post with
  | nil => simp [nonWordHead, hc]
  | cons d post' =>
      rw [nonWordHead] at hR ⊢
      simpa using hR

/-- An occurrence extends to the left through prepended text ending in a
non-word character. -/
theorem boundedOcc_prepend {kws : List Str} {zs : Str} (c : Char)
    (hc : isWordChar c = false) (h : BoundedOcc kws false zs) :
    ∀ (ys : Str) (p : Bool), BoundedOcc kws p (ys ++ c :: zs) := by
  intro ys
  induction ys with
  | nil =>
      intro p
      rw [List.nil_append]
      refine boundedOcc_cons p ?_
      rw [hc]
      exact h
  | cons y ys' ih =>
      intro p
      rw [List.cons_append]
      exact boundedOcc_cons p (ih (isWordChar y))

/-- Completeness of the `TOW_NAME_PATTERN` matcher at the start position. -/
theorem towAt_of_occ {kw code post : Str} (hmem : kw ∈ towRoots)
    (hmap : code.map pyLower = kw) (hR : nonWordHead post = true) :
    towAt (code ++ post) = true := by
  refine List.any_eq_true.mpr ⟨kw, hmem, ?_⟩
  have hlen : kw.length = code.length := by rw [← hmap, List.length_map]
  have htake : (code ++ post).take kw.length = code := by
    rw [hlen]
    exact List.take_left code post
  have hdrop : (code ++ post).drop kw.length = post := by
    rw [hlen]
    exact List.drop_left code post
  rw [Bool.and_eq_true]
  constructor
  · rw [ciPref, htake, hmap]
    simp
  · rw [hdrop, boundaryAt_eq_nonWordHead]
    exact hR

/-- Completeness of the `TOW_NAME_PATTERN` search: any word-bounded
case-insensitive occurrence of a root is found. -/
theorem towFindAux_of_occ : ∀ (ys : Str) (p : Bool),
    BoundedOcc towRoots p ys → towFindAux p ys = true := by
  intro ys
  induction ys with
  | nil =>
      intro p h
      obtain ⟨kw, pre, code, post, hmem, heq, hmap, _, _⟩ := h
      rcases List.append_eq_nil.mp heq.symm with ⟨h1, _⟩
      rcases List.append_eq_nil.mp h1 with ⟨_, hcode⟩
      rw [hcode] at hmap
      have hne : ∀ k ∈ towRoots, k ≠ [] := by decide
      exact absurd hmap.symm (hne kw hmem)
  | cons c rest ih =>
      intro p h
      obtain ⟨kw, pre, code, post, hmem, heq, hmap, hL, hR⟩ := h
      cases pre with
      | nil =>
          have hp : p = false := by
            rw [nonWordLast] at hL
            simpa using hL
          rw [towFindAux, hp]
          have hcp : c :: rest = code ++ post := by simpa using heq
          rw [hcp]
          simp [towAt_of_occ hmem hmap hR]
      | cons a pre' =>
          have ha : a = c ∧ rest = pre' ++ code ++ post := by
            simp only [List.cons_append, List.cons.injEq] at heq
            exact ⟨heq.1.symm, heq.2⟩
          have hocc2 : BoundedOcc towRoots (isWordChar c) rest := by
            refine ⟨kw, pre', code, post, hmem, ha.2, hmap, ?_, hR⟩
            cases pre' with
            | nil =>
                rw [nonWordLast] at hL ⊢
                rw [ha.1] at hL
                simpa using hL
            | cons b pre'' =>
                rw [nonWordLast] at hL ⊢
                rwa [List.getLast?_cons_cons] at hL
          rw [towFindAux, ih (isWordChar c) hocc2]
          simp

-- ---------------------------------------------------------------------------
-- Claim C8: auto-approval of service-named records
-- ---------------------------------------------------------------------------

theorem contains_false_not_mem {l : List ℕ} {a : ℕ}
    (h : l.contains a = false) : a ∉ l := by
  intro hm
  have h2 : List.elem a l = false := h
  rw [List.elem_eq_true_of_mem hm] at h2
  cases h2

theorem lookup_append_of_some {l₁ l₂ : List (ℕ × Str)} {d : ℕ} {v : Str}
    (h : l₁.lookup d = some v) : (l₁ ++ l₂).lookup d = some v := by
  induction l₁ with
  | nil => simp [List.lookup] at h
  | cons e l₁ ih =>
      simp only [List.lookup] at h
      simp only [List.cons_append, List.lookup]
      cases he : d == e.1 with
      | true => simp only [he] at h ⊢; exact h
      | false => simp only [he] at h ⊢; exact ih h

theorem lookup_append_of_none {l₁ l₂ : List (ℕ × Str)} {d : ℕ}
    (h : l₁.lookup d = none) : (l₁ ++ l₂).lookup d = l₂.lookup d := by
  induction l₁ with
  | nil => simp
  | cons e l₁ ih =>
      simp only [List.lookup] at h
      simp only [List.cons_append, List.lookup]
      cases he : d == e.1 with
      | true =>
          simp only [he] at h
          exact absurd h (by simp)
      | false => simp only [he] at h ⊢; exact ih h

theorem lookup_val_mem {l : List (ℕ × Str)} {d : ℕ} {v : Str}
    (h : l.lookup d = some v) : v ∈ l.map Prod.snd := by
  induction l with
  | nil => simp [List.lookup] at h
  | cons e l ih =>
      simp only [List.lookup] at h
      cases he : d == e.1 with
      | true =>
          simp only [he, Option.some.injEq] at h
          simp [← h]
      | false =>
          simp only [he] at h
          simp [ih h]

/-- The auto-approve fold (dot.py lines 548-558, fresh run): every row it
sees ends with its DOT number mapped to the sentinel and in the processed
set; existing entries and processed identifiers are never dropped, and
every stored value is the sentinel. -/
theorem autoFold_spec (l : List Rec) :
    ∀ acc : List (ℕ × Str) × List ℕ,
    (∀ v ∈ acc.1.map Prod.snd, v = AUTO_APPROVED) →
    (∀ d, (acc.1.lookup d).isSome = true → d ∈ acc.2) →
    ((∀ v ∈ (l.foldl (fun acc r =>
        if (acc.1.lookup r.dot).isSome then acc
        else (acc.1 ++ [(r.dot, AUTO_APPROVED)], acc.2 ++ [r.dot])) acc).1.map Prod.snd,
        v = AUTO_APPROVED) ∧
     (∀ d v, acc.1.lookup d = some v → (l.foldl (fun acc r =>
        if (acc.1.lookup r.dot).isSome then acc
        else (acc.1 ++ [(r.dot, AUTO_APPROVED)], acc.2 ++ [r.dot])) acc).1.lookup d
          = some v) ∧
     (∀ d, d ∈ acc.2 → d ∈ (l.foldl (fun acc r =>
        if (acc.1.lookup r.dot).isSome then acc
        else (acc.1 ++ [(r.dot, AUTO_APPROVED)], acc.2 ++ [r.dot])) acc).2) ∧
     (∀ r ∈ l, (l.foldl (fun acc r =>
        if (acc.1.lookup r.dot).isSome then acc
        else (acc.1 ++ [(r.dot, AUTO_APPROVED)], acc.2 ++ [r.dot])) acc).1.lookup r.dot
          = some AUTO_APPROVED ∧
        r.dot ∈ (l.foldl (fun acc r =>
        if (acc.1.lookup r.dot).isSome then acc
        else (acc.1 ++ [(r.dot, AUTO_APPROVED)], acc.2 ++ [r.dot])) acc).2)) := by
  induction l with
  | nil =>
      intro acc hval hdom
      exact ⟨hval, fun d v h => h, fun d h => h, by simp⟩
  | cons r l ih =>
      intro acc hval hdom
      simp only [List.foldl_cons]
      by_cases hs : (acc.1.lookup r.dot).isSome = true
      · rw [if_pos hs]
        obtain ⟨ha, hc, hd, he⟩ := ih acc hval hdom
        refine ⟨ha, hc, hd, ?_⟩
        intro q hq
        rcases List.mem_cons.mp hq with rfl | hq'
        · obtain ⟨v, hv⟩ := Option.isSome_iff_exists.mp hs
          have hva : v = AUTO_APPROVED := hval v (lookup_val_mem hv)
          rw [hva] at hv
          exact ⟨hc _ _ hv, hd _ (hdom _ hs)⟩
        · exact he q hq'
      · rw [if_neg hs]
        have hnone : acc.1.lookup r.dot = none := by
          cases hl : acc.1.lookup r.dot with
          | none => rfl
          | some v => rw [hl] at hs; simp at hs
        have hval' : ∀ v ∈ (acc.1 ++ [(r.dot, AUTO_APPROVED)]).map Prod.snd,
            v = AUTO_APPROVED := by
          intro v hv
          rw [List.map_append] at hv
          rcases List.mem_append.mp hv with hv | hv
          · exact hval v hv
          · simpa using hv
        have hdom' : ∀ d,
            ((acc.1 ++ [(r.dot, AUTO_APPROVED)]).lookup d).isSome = true →
            d ∈ acc.2 ++ [r.dot] := by
          intro d hd
          by_cases hda : (acc.1.lookup d).isSome = true
          · exact List.mem_append.mpr (Or.inl (hdom d hda))
          · have hdn : acc.1.lookup d = none := by
              cases hl : acc.1.lookup d with
              | none => rfl
              | some v => rw [hl] at hda; simp at hda
            rw [lookup_append_of_none hdn, List.lookup] at hd
            cases hdr : d == r.dot with
            | true =>
                have hde : d = r.dot := by simpa using hdr
                simp [hde]
            | false =>
                simp only [hdr] at hd
                simp [List.lookup] at hd
        obtain ⟨ha, hc, hd, he⟩ :=
          ih (acc.1 ++ [(r.dot, AUTO_APPROVED)], acc.2 ++ [r.dot]) hval' hdom'
        refine ⟨ha, ?_, ?_, ?_⟩
        · intro d v hv
          exact hc d v (lookup_append_of_some hv)
        · intro d hdm
          exact hd d (List.mem_append.mpr (Or.inl hdm))
        · intro q hq
          rcases List.mem_cons.mp hq with rfl | hq'
          · have hself : (acc.1 ++ [(q.dot, AUTO_APPROVED)]).lookup q.dot
                = some AUTO_APPROVED := by
              rw [lookup_append_of_none hnone]
              simp [List.lookup]
            exact ⟨hc _ _ hself, hd _ (List.mem_append.mpr (Or.inr (by simp)))⟩
          · exact he q hq'

/-- Claim C8: a record whose legal name or alternate (DBA) name contains a
whole-word case-insensitive occurrence of a service root is auto-approved
on a fresh run: `has_tow_in_name` is true, `main` records the
`AUTO_APPROVED` sentinel as its matched URL, marks it processed, and
excludes it from the search queue — so the Search Client (which workers
invoke only for queued rows) is never invoked for it. -/
theorem C8_auto_approve (rows : List Rec) (r : Rec) (hr : r ∈ rows)
    (hocc : BoundedOcc towRoots false r.legal ∨
      BoundedOcc towRoots false (r.dba.getD [])) :
    has_tow_in_name r.legal r.dba = true ∧
    (mainSetup rows).1.lookup r.dot = some AUTO_APPROVED ∧
    r.dot ∈ (mainSetup rows).2.1 ∧
    ∀ q ∈ (mainSetup rows).2.2, q.dot ≠ r.dot := by
  have htow : has_tow_in_name r.legal r.dba = true := by
    rw [has_tow_in_name]
    rcases hocc with hocc | hocc
    · exact towFindAux_of_occ _ _
        (boundedOcc_append ' ' (r.dba.getD []) (by decide) hocc)
    · exact towFindAux_of_occ _ _
        (boundedOcc_prepend ' ' (by decide) hocc r.legal false)
  have hauto : r ∈ rows.filter (fun r => has_tow_in_name r.legal r.dba) :=
    List.mem_filter.mpr ⟨hr, htow⟩
  obtain ⟨_, _, _, he⟩ :=
    autoFold_spec (rows.filter (fun r => has_tow_in_name r.legal r.dba))
      ([], []) (by simp) (by simp [List.lookup])
  obtain ⟨hlk, hpr⟩ := he r hauto
  refine ⟨htow, hlk, hpr, ?_⟩
  intro q hq hqd
  simp only [mainSetup, List.mem_filter, Bool.not_eq_true'] at hq
  have hq2 := hq.2
  rw [hqd] at hq2
  exact contains_false_not_mem hq2 (List.mem_append.mpr (Or.inl hpr))

/-- Witness for C8: the legally towing-named record 42 is auto-approved and
absent from the queue, and so is record 44, which qualifies only through
its DBA name. -/
theorem C8_witness :
    (has_tow_in_name "Acme Towing".toList none = true ∧
     (mainSetup [⟨42, "Acme Towing".toList, none, [], [], [], []⟩,
         ⟨43, "Acme Recovery".toList, none, [], [], [], []⟩]).1.lookup 42
       = some AUTO_APPROVED ∧
     42 ∈ (mainSetup [⟨42, "Acme Towing".toList, none, [], [], [], []⟩,
         ⟨43, "Acme Recovery".toList, none, [], [], [], []⟩]).2.1 ∧
     ∀ q ∈ (mainSetup [⟨42, "Acme Towing".toList, none, [], [], [], []⟩,
         ⟨43, "Acme Recovery".toList, none, [], [], [], []⟩]).2.2,
       q.dot ≠ 42) ∧
    (has_tow_in_name "Smith Enterprises".toList
        (some "Smith Towing".toList) = true ∧
     (mainSetup [⟨44, "Smith Enterprises".toList, some "Smith Towing".toList,
         [], [], [], []⟩]).1.lookup 44 = some AUTO_APPROVED ∧
     44 ∈ (mainSetup [⟨44, "Smith Enterprises".toList,
         some "Smith Towing".toList, [], [], [], []⟩]).2.1 ∧
     ∀ q ∈ (mainSetup [⟨44, "Smith Enterprises".toList,
         some "Smith Towing".toList, [], [], [], []⟩]).2.2, q.dot ≠ 44) :=
  ⟨C8_auto_approve _ ⟨42, "Acme Towing".toList, none, [], [], [], []⟩ (by simp)
    (Or.inl ⟨"towing".toList, "Acme ".toList, "Towing".toList, [], by decide,
      by decide, by decide, by decide, by decide⟩),
   C8_auto_approve _ ⟨44, "Smith Enterprises".toList,
      some "Smith Towing".toList, [], [], [], []⟩ (by simp)
    (Or.inr ⟨"towing".toList, "Smith ".toList, "Towing".toList, [], by decide,
      by decide, by decide, by decide, by decide⟩)⟩

-- ---------------------------------------------------------------------------
-- Claim C5 machinery, part 1: SUFFIX_PATTERN facts
-- ---------------------------------------------------------------------------

theorem kwList_ne_nil : ∀ kw ∈ kwList, kw ≠ [] := by decide

theorem kwList_word : ∀ kw ∈ kwList, ∀ k ∈ kw, isWordChar k = true := by decide

theorem kwList_len2 : ∀ kw ∈ kwList, 2 ≤ kw.length := by decide

theorem kwList_no_an : ∀ kw ∈ kwList, ¬ (['a', 'n'] <:+: kw) := by decide

theorem kwList_head : ∀ kw ∈ kwList,
    kw.head? ≠ some 'a' ∧ kw.head? ≠ some 'n' ∧ kw.head? ≠ some 'd' := by decide

/-- No occurrence fits in the empty string when all alternatives are
non-empty. -/
theorem boundedOcc_nil {kws : List Str} {p : Bool}
    (hne : ∀ kw ∈ kws, kw ≠ []) : ¬ BoundedOcc kws p [] := by
  rintro ⟨kw, pre, code, post, hmem, heq, hmap, -, -⟩
  rcases List.append_eq_nil.mp heq.symm with ⟨h1, -⟩
  rcases List.append_eq_nil.mp h1 with ⟨-, hcode⟩
  rw [hcode] at hmap
  exact hne kw hmem hmap.symm

/-- Eliminating an occurrence in `c :: ys`: either it starts at position 0
(possible only with a `false` flag), or the tail contains one relative to
`c`'s word-ness. -/
theorem boundedOcc_cons_elim {kws : List Str} {q : Bool} {c : Char} {ys : Str}
    (h : BoundedOcc kws q (c :: ys)) :
    (q = false ∧ ∃ kw code post, kw ∈ kws ∧ c :: ys = code ++ post ∧
      code.map pyLower = kw ∧ nonWordHead post = true) ∨
    BoundedOcc kws (isWordChar c) ys := by
  obtain ⟨kw, pre, code, post, hmem, heq, hmap, hL, hR⟩ := h
  cases pre with
  | nil =>
      left
      rw [nonWordLast] at hL
      simp only [List.getLast?_nil] at hL
      exact ⟨by simpa using hL, kw, code, post, hmem, by simpa using heq, hmap, hR⟩
  | cons a pre' =>
      right
      have ha : a = c ∧ ys = pre' ++ code ++ post := by
        simp only [List.cons_append, List.cons.injEq] at heq
        exact ⟨heq.1.symm, heq.2⟩
      refine ⟨kw, pre', code, post, hmem, ha.2, hmap, ?_, hR⟩
      cases pre' with
      | nil =>
          rw [nonWordLast] at hL ⊢
          rw [ha.1] at hL
          simpa using hL
      | cons b pre'' =>
          rw [nonWordLast] at hL ⊢
          rwa [List.getLast?_cons_cons] at hL

/-- The flag only constrains occurrences at position 0, which are always
admissible under the `false` flag. -/
theorem boundedOcc_flag {kws : List Str} {p : Bool} {ys : Str}
    (h : BoundedOcc kws p ys) : BoundedOcc kws false ys := by
  obtain ⟨kw, pre, code, post, hmem, heq, hmap, hL, hR⟩ := h
  refine ⟨kw, pre, code, post, hmem, heq, hmap, ?_, hR⟩
  cases pre with
  | nil => simp [nonWordLast]
  | cons a pre' => exact hL

theorem ciPref_of_code {kw code : Str} (r : Str) (hmap : code.map pyLower = kw) :
    ciPref kw (code ++ r) = true := by
  have hlen : kw.length = code.length := by rw [← hmap, List.length_map]
  rw [ciPref, hlen, List.take_left, hmap]
  simp

theorem ciPref_map {kw cs : Str} (h : ciPref kw cs = true) :
    (cs.take kw.length).map pyLower = kw := by
  rw [ciPref] at h
  simpa using h

theorem ciPref_len {kw cs : Str} (h : ciPref kw cs = true) :
    kw.length ≤ cs.length := by
  have h2 := congrArg List.length (ciPref_map h)
  simp only [List.length_map, List.length_take] at h2
  omega

/-- `tryKw` succeeds given a case-insensitive prefix match with a word
boundary after the keyword. -/
theorem tryKw_isSome {kw cs : Str} (hpref : ciPref kw cs = true)
    (hbd : boundaryAt (cs.drop kw.length) = true) :
    (tryKw kw cs).isSome = true := by
  rw [tryKw, if_pos hpref]
  by_cases hdot : (cs.drop kw.length).head? = some '.'
  · rw [if_pos hdot]
    by_cases hw : ((cs.drop kw.length).tail.head?.elim false isWordChar) = true
    · rw [if_pos hw]; simp
    · rw [if_neg hw]; simp
  · rw [if_neg hdot]
    have hx : ((cs.drop kw.length).head?.elim false isWordChar) = false := by
      rcases hdrop : cs.drop kw.length with - | ⟨d, tl⟩
      · simp
      · rw [hdrop, boundaryAt] at hbd
        simp only [List.head?_cons, Option.elim_some]
        simpa using hbd
    rw [if_neg (by rw [hx]; simp)]
    simp

theorem findSome?_isSome_of_mem {α β : Type} {f : α → Option β} {l : List α}
    {a : α} (ha : a ∈ l) (hf : (f a).isSome = true) :
    (l.findSome? f).isSome = true := by
  induction l with
  | nil => cases ha
  | cons b t ih =>
      rw [List.findSome?]
      cases hb : f b with
      | none =>
          simp only [hb]
          rcases List.mem_cons.mp ha with rfl | ha'
          · rw [hb] at hf; simp at hf
          · exact ih ha'
      | some v => simp only [hb]; simp

theorem findSome?_eq_some_mem {α β : Type} {f : α → Option β} {l : List α}
    {b : β} (h : l.findSome? f = some b) : ∃ a ∈ l, f a = some b := by
  induction l with
  | nil => simp [List.findSome?] at h
  | cons x t ih =>
      rw [List.findSome?] at h
      cases hx : f x with
      | none =>
          simp only [hx] at h
          obtain ⟨a, ha, hfa⟩ := ih h
          exact ⟨a, by simp [ha], hfa⟩
      | some v =>
          simp only [hx] at h
          exact ⟨x, by simp, by rw [hx, h]⟩

/-- Characterisation of a successful `tryKw`. -/
theorem tryKw_some_spec {kw cs : Str} {n : ℕ} (h : tryKw kw cs = some n) :
    ciPref kw cs = true ∧
    ((n = kw.length ∧ boundaryAt (cs.drop kw.length) = true) ∨
     (n = kw.length + 1 ∧
       ∃ d t, cs.drop kw.length = '.' :: d :: t ∧ isWordChar d = true)) := by
  rw [tryKw] at h
  by_cases hpref : ciPref kw cs = true
  · rw [if_pos hpref] at h
    refine ⟨hpref, ?_⟩
    by_cases hdot : (cs.drop kw.length).head? = some '.'
    · rw [if_pos hdot] at h
      by_cases hw : ((cs.drop kw.length).tail.head?.elim false isWordChar) = true
      · rw [if_pos hw] at h
        simp only [Option.some.injEq] at h
        refine Or.inr ⟨h.symm, ?_⟩
        rcases hdrop : cs.drop kw.length with - | ⟨d, tl⟩
        · rw [hdrop] at hdot; simp at hdot
        · rw [hdrop] at hdot hw
          simp only [List.head?_cons, Option.some.injEq] at hdot
          rcases htl : tl with - | ⟨e, t2⟩
          · rw [htl] at hw; simp at hw
          · rw [htl] at hw
            simp only [List.tail_cons, List.head?_cons, Option.elim_some] at hw
            exact ⟨e, t2, by rw [hdot], hw⟩
      · rw [if_neg hw] at h
        simp only [Option.some.injEq] at h
        refine Or.inl ⟨h.symm, ?_⟩
        rcases hdrop : cs.drop kw.length with - | ⟨d, tl⟩
        · simp [boundaryAt]
        · rw [hdrop] at hdot
          simp only [List.head?_cons, Option.some.injEq] at hdot
          rw [boundaryAt, hdot]
          decide
    · rw [if_neg hdot] at h
      by_cases hw : ((cs.drop kw.length).head?.elim false isWordChar) = true
      · rw [if_pos hw] at h
        cases h
      · rw [if_neg hw] at h
        simp only [Option.some.injEq] at h
        refine Or.inl ⟨h.symm, ?_⟩
        rcases hdrop : cs.drop kw.length with - | ⟨d, tl⟩
        · simp [boundaryAt]
        · rw [hdrop] at hw
          simp only [List.head?_cons, Option.elim_some] at hw
          rw [boundaryAt]
          simp only [Bool.not_eq_true] at hw
          simp [hw]
  · rw [if_neg hpref] at h
    cases h

-- ---------------------------------------------------------------------------
-- Claim C5 machinery, part 2: the substitution scanner
-- ---------------------------------------------------------------------------

theorem subAuxS_nil (k : ℕ) (p : Bool) : subAuxS k p [] = [] := by
  cases k <;> rfl

theorem subAuxS_succ (k : ℕ) (p : Bool) (c : Char) (rest : Str) :
    subAuxS (k + 1) p (c :: rest) = subAuxS k (isWordChar c) rest := rfl

theorem subAuxS_zero_cons (p : Bool) (c : Char) (rest : Str) :
    subAuxS 0 p (c :: rest) =
      if p then c :: subAuxS 0 (isWordChar c) rest
      else
        match matchKw (c :: rest) with
        | some n => subAuxS (n - 1) (isWordChar c) rest
        | none => c :: subAuxS 0 (isWordChar c) rest := rfl

/-- Skipping exactly the matched span: after dropping `u ++ [d]`, scanning
resumes with `d`'s word-ness as the boundary state. -/
theorem subAuxS_skip : ∀ (u : Str) (d : Char) (q : Bool) (zs : Str),
    subAuxS (u.length + 1) q (u ++ d :: zs) = subAuxS 0 (isWordChar d) zs := by
  intro u
  induction u with
  | nil => intro d q zs; rfl
  | cons a u' ih =>
      intro d q zs
      rw [List.cons_append, List.length_cons]
      rw [show u'.length + 1 + 1 = (u'.length + 1) + 1 from rfl]
      rw [subAuxS_succ]
      exact ih d (isWordChar a) zs

/-- A word-character prefix of the scanner's output under the `true` flag
is a literal prefix of the input (word runs after a word character are
copied verbatim). -/
theorem subAuxS_word_split : ∀ (code rest q : Str),
    (∀ ch ∈ code, isWordChar ch = true) → subAuxS 0 true rest = code ++ q →
    ∃ r2, rest = code ++ r2 ∧ subAuxS 0 true r2 = q := by
  intro code
  induction code with
  | nil =>
      intro rest q _ h
      exact ⟨rest, rfl, by simpa using h⟩
  | cons a code' ih =>
      intro rest q hword h
      cases rest with
      | nil =>
          rw [subAuxS_nil] at h
          exact absurd h.symm (by simp)
      | cons b rest' =>
          rw [subAuxS_zero_cons, if_pos rfl] at h
          simp only [List.cons_append, List.cons.injEq] at h
          obtain ⟨rfl, h2⟩ := h
          have hwa : isWordChar b = true := hword b (by simp)
          rw [hwa] at h2
          obtain ⟨r2, hr1, hr2⟩ :=
            ih rest' q (fun ch hch => hword ch (by simp [hch])) h2
          exact ⟨r2, by rw [List.cons_append, hr1], hr2⟩

/-- Main removal property: the output of the `SUFFIX_PATTERN` scanner
contains no word-bounded case-insensitive occurrence of any alternative. -/
theorem subAuxS_no_occ : ∀ (n : ℕ) (cs : Str), cs.length ≤ n →
    ∀ p, ¬ BoundedOcc kwList p (subAuxS 0 p cs) := by
  intro n
  induction n with
  | zero =>
      intro cs hlen p
      have hcs : cs = [] := List.length_eq_zero.mp (Nat.le_zero.mp hlen)
      rw [hcs, subAuxS_nil]
      exact boundedOcc_nil kwList_ne_nil
  | succ n ih =>
      intro cs hlen p
      cases cs with
      | nil =>
          rw [subAuxS_nil]
          exact boundedOcc_nil kwList_ne_nil
      | cons c rest =>
          rw [List.length_cons] at hlen
          have hrn : rest.length ≤ n := by omega
          by_cases hp : p = true
          · subst hp
            rw [subAuxS_zero_cons, if_pos rfl]
            intro h
            rcases boundedOcc_cons_elim h with ⟨hq, -⟩ | h2
            · cases hq
            · exact ih rest hrn (isWordChar c) h2
          · rw [Bool.not_eq_true] at hp
            subst hp
            rw [subAuxS_zero_cons, if_neg (by simp)]
            cases hm : matchKw (c :: rest) with
            | none =>
                show ¬ BoundedOcc kwList false (c :: subAuxS 0 (isWordChar c) rest)
                intro h
                rcases boundedOcc_cons_elim h with
                  ⟨-, kw, code, post, hmem, heqcp, hmap, hR⟩ | h2
                · have hcw : ∀ ch ∈ code, isWordChar ch = true :=
                    code_word_of_map hmap (kwList_word kw hmem)
                  cases code with
                  | nil =>
                      rw [List.map_nil] at hmap
                      exact kwList_ne_nil kw hmem hmap.symm
                  | cons c0 code' =>
                      simp only [List.cons_append, List.cons.injEq] at heqcp
                      obtain ⟨rfl, h3⟩ := heqcp
                      have hwc : isWordChar c = true := hcw c (by simp)
                      rw [hwc] at h3
                      obtain ⟨r2, hr1, hr2⟩ := subAuxS_word_split code' rest post
                        (fun ch hch => hcw ch (by simp [hch])) h3
                      have hcs : c :: rest = (c :: code') ++ r2 := by
                        rw [List.cons_append, hr1]
                      have hpref : ciPref kw (c :: rest) = true := by
                        rw [hcs]
                        exact ciPref_of_code r2 hmap
                      have hbd : boundaryAt ((c :: rest).drop kw.length) = true := by
                        have hlen2 : kw.length = (c :: code').length := by
                          rw [← hmap, List.length_map]
                        rw [hcs, hlen2, List.drop_left]
                        cases r2 with
                        | nil => rfl
                        | cons w t =>
                            rw [subAuxS_zero_cons, if_pos rfl] at hr2
                            rw [← hr2] at hR
                            simp only [nonWordHead, List.head?_cons] at hR
                            simp only [boundaryAt]
                            exact hR
                      have hsome : (matchKw (c :: rest)).isSome = true :=
                        @findSome?_isSome_of_mem Str ℕ
                          (fun k => tryKw k (c :: rest)) kwList kw hmem
                          (tryKw_isSome hpref hbd)
                      rw [hm] at hsome
                      cases hsome
                · exact ih rest hrn (isWordChar c) h2
            | some n' =>
                show ¬ BoundedOcc kwList false (subAuxS (n' - 1) (isWordChar c) rest)
                obtain ⟨kw, hmem, htry⟩ := findSome?_eq_some_mem hm
                obtain ⟨hpref, hcase⟩ := tryKw_some_spec htry
                have hk2 : 2 ≤ kw.length := kwList_len2 kw hmem
                have hmapc := ciPref_map hpref
                have hlenle := ciPref_len hpref
                rw [List.length_cons] at hlenle
                have hk1 : kw.length - 1 + 1 = kw.length := by omega
                rw [← hk1, List.take_succ_cons] at hmapc
                have hcw : ∀ ch ∈ c :: rest.take (kw.length - 1),
                    isWordChar ch = true :=
                  code_word_of_map hmapc (kwList_word kw hmem)
                have hdropc : (c :: rest).drop kw.length
                    = rest.drop (kw.length - 1) := by
                  conv_lhs => rw [← hk1]
                  rw [List.drop_succ_cons]
                have hlcode : (rest.take (kw.length - 1)).length
                    = kw.length - 1 := by
                  rw [List.length_take]
                  omega
                rcases hcase with ⟨hn, hbd⟩ | ⟨hn, d, t, hdrop2, -⟩
                · -- matched the bare keyword: the last consumed character
                  -- is the keyword's final (word) character
                  rcases List.eq_nil_or_concat (rest.take (kw.length - 1)) with
                    hnil | ⟨u, dlast, hud⟩
                  · rw [hnil] at hlcode
                    simp at hlcode
                    omega
                  · have hword_last : isWordChar dlast = true :=
                      hcw dlast (by simp [hud])
                    have hrest : rest
                        = u ++ dlast :: rest.drop (kw.length - 1) := by
                      conv_lhs => rw [← List.take_append_drop (kw.length - 1) rest]
                      rw [hud, List.concat_eq_append, List.append_assoc, List.singleton_append]
                    have hulen : n' - 1 = u.length + 1 := by
                      have h5 := congrArg List.length hud
                      rw [hlcode] at h5
                      simp at h5
                      omega
                    conv in subAuxS _ _ rest => rw [hrest]
                    rw [hulen, subAuxS_skip, hword_last]
                    rw [hdropc] at hbd
                    cases hr2 : rest.drop (kw.length - 1) with
                    | nil =>
                        rw [subAuxS_nil]
                        exact boundedOcc_nil kwList_ne_nil
                    | cons w tl =>
                        rw [hr2] at hbd
                        simp only [boundaryAt] at hbd
                        rw [subAuxS_zero_cons, if_pos rfl]
                        intro h
                        rcases boundedOcc_cons_elim h with
                          ⟨-, kw2, code2, post2, hmem2, heq2, hmap2, -⟩ | h2
                        · cases code2 with
                          | nil =>
                              rw [List.map_nil] at hmap2
                              exact kwList_ne_nil kw2 hmem2 hmap2.symm
                          | cons c20 code2' =>
                              simp only [List.cons_append,
                                List.cons.injEq] at heq2
                              have hw20 : isWordChar c20 = true :=
                                code_word_of_map hmap2 (kwList_word kw2 hmem2)
                                  c20 (by simp)
                              rw [heq2.1, hw20] at hbd
                              simp at hbd
                        · have htlen : tl.length ≤ n := by
                            have h6 := congrArg List.length
                              (List.take_append_drop (kw.length - 1) rest)
                            rw [hr2] at h6
                            simp only [List.length_append, List.length_cons,
                              hlcode] at h6
                            omega
                          have hwf : isWordChar w = false := by
                            simpa using hbd
                          rw [hwf] at h2
                          exact ih tl htlen false h2
                · -- matched keyword plus dot: scanning resumes after the
                  -- dot, a non-word character
                  rw [hdropc] at hdrop2
                  have hlek : kw.length - 1 < rest.length := by
                    have h7 := congrArg List.length hdrop2
                    rw [List.length_drop] at h7
                    simp only [List.length_cons] at h7
                    omega
                  have hrest : rest = rest.take (kw.length - 1) ++
                      ('.' :: (d :: t)) := by
                    conv_lhs => rw [← List.take_append_drop (kw.length - 1) rest]
                    rw [hdrop2]
                  have hulen : n' - 1
                      = (rest.take (kw.length - 1)).length + 1 := by
                    rw [hlcode]
                    omega
                  conv in subAuxS _ _ rest => rw [hrest]
                  rw [hulen, subAuxS_skip]
                  rw [show isWordChar '.' = false from by decide]
                  have htlen : (d :: t).length ≤ n := by
                    have h8 := congrArg List.length hrest
                    simp only [List.length_append, List.length_cons,
                      hlcode] at h8
                    simp only [List.length_cons]
                    omega
                  exact ih (d :: t) htlen false

/-- If a string has no word-bounded occurrence of any alternative, the
scanner leaves it unchanged. -/
theorem subAuxS_eq_self : ∀ (cs : Str) (p : Bool),
    ¬ BoundedOcc kwList p cs → subAuxS 0 p cs = cs := by
  intro cs
  induction cs with
  | nil => intro p _; rfl
  | cons c rest ih =>
      intro p hno
      by_cases hp : p = true
      · subst hp
        rw [subAuxS_zero_cons, if_pos rfl]
        rw [ih (isWordChar c) (fun h2 => hno (boundedOcc_cons true h2))]
      · rw [Bool.not_eq_true] at hp
        subst hp
        rw [subAuxS_zero_cons, if_neg (by simp)]
        cases hm : matchKw (c :: rest) with
        | some n' =>
            exfalso
            obtain ⟨kw, hmem, htry⟩ := findSome?_eq_some_mem hm
            obtain ⟨hpref, hcase⟩ := tryKw_some_spec htry
            refine hno ⟨kw, [], (c :: rest).take kw.length,
              (c :: rest).drop kw.length, hmem, ?_, ciPref_map hpref, ?_, ?_⟩
            · rw [List.nil_append, List.take_append_drop]
            · decide
            · rw [← boundaryAt_eq_nonWordHead]
              rcases hcase with ⟨-, hbd⟩ | ⟨-, d, t, hdrop2, -⟩
              · exact hbd
              · rw [hdrop2]
                simp only [boundaryAt]
                decide
        | none =>
            show c :: subAuxS 0 (isWordChar c) rest = c :: rest
            rw [ih (isWordChar c) (fun h2 => hno (boundedOcc_cons false h2))]

-- ---------------------------------------------------------------------------
-- Claim C5 machinery, part 3: character classes and generic list helpers
-- ---------------------------------------------------------------------------

/-- The punctuation substitution never changes word-char-ness. -/
theorem punctSp_word (c : Char) : isWordChar (punctSp c) = isWordChar c := by
  rw [punctSp]
  by_cases h : (isWordChar c || isSpc c || c == apos) = true
  · rw [if_pos h]
  · rw [if_neg h]
    simp only [Bool.or_eq_true, not_or] at h
    obtain ⟨⟨h1, -⟩, -⟩ := h
    rw [Bool.not_eq_true] at h1
    rw [h1]
    decide

theorem punctSp_fix {c : Char} (h : isWordChar c = true) : punctSp c = c := by
  rw [punctSp, if_pos (by rw [h]; rfl)]

theorem punctSp_idem (c : Char) : punctSp (punctSp c) = punctSp c := by
  by_cases h : (isWordChar c || isSpc c || c == apos) = true
  · have h2 : punctSp c = c := by rw [punctSp, if_pos h]
    rw [h2]
    exact h2
  · have h2 : punctSp c = ' ' := by rw [punctSp, if_neg h]
    rw [h2]
    decide

theorem punctSp_ne_amp (c : Char) : punctSp c ≠ '&' := by
  rw [punctSp]
  by_cases h : (isWordChar c || isSpc c || c == apos) = true
  · rw [if_pos h]
    intro hc
    subst hc
    exact absurd h (by decide)
  · rw [if_neg h]
    decide

theorem spc_not_word {c : Char} (h : isSpc c = true) : isWordChar c = false := by
  rw [isSpc] at h
  simp only [Bool.or_eq_true, beq_iff_eq] at h
  rcases h with ((((h | h) | h) | h) | h) | h <;> subst h <;> decide

/-- Splitting a mapped list along an append of the image. -/
theorem map_split {f : Char → Char} : ∀ (l : List Char) (s t : List Char),
    l.map f = s ++ t → ∃ u v, l = u ++ v ∧ u.map f = s ∧ v.map f = t := by
  intro l
  induction l with
  | nil =>
      intro s t h
      rcases List.append_eq_nil.mp h.symm with ⟨rfl, rfl⟩
      exact ⟨[], [], rfl, rfl, rfl⟩
  | cons a l' ih =>
      intro s t h
      cases s with
      | nil =>
          exact ⟨[], a :: l', rfl, rfl, by simpa using h⟩
      | cons b s' =>
          rw [List.map_cons, List.cons_append, List.cons.injEq] at h
          obtain ⟨h1, h2⟩ := h
          obtain ⟨u, v, rfl, hu, hv⟩ := ih s' t h2
          exact ⟨a :: u, v, rfl, by rw [List.map_cons, hu, h1], hv⟩

theorem map_congr_mem {α β : Type} {f g : α → β} :
    ∀ (l : List α), (∀ a ∈ l, f a = g a) → l.map f = l.map g := by
  intro l
  induction l with
  | nil => intro _; rfl
  | cons a l' ih =>
      intro h
      rw [List.map_cons, List.map_cons, h a (by simp),
        ih (fun b hb => h b (by simp [hb]))]

theorem map_fix {f : Char → Char} : ∀ (l : Str),
    (∀ c ∈ l, f c = c) → l.map f = l := by
  intro l
  induction l with
  | nil => intro _; rfl
  | cons c l' ih =>
      intro h
      rw [List.map_cons, h c (by simp), ih (fun d hd => h d (by simp [hd]))]

theorem mem_of_head {l : Str} {a : Char} (h : l.head? = some a) : a ∈ l := by
  cases l with
  | nil => cases h
  | cons b l' =>
      rw [List.head?_cons, Option.some.injEq] at h
      rw [← h]
      exact List.mem_cons_self b l'

theorem mem_of_getLast {l : Str} {a : Char} (h : l.getLast? = some a) : a ∈ l := by
  rw [← List.head?_reverse] at h
  cases hrev : l.reverse with
  | nil => rw [hrev] at h; cases h
  | cons b r =>
      rw [hrev, List.head?_cons, Option.some.injEq] at h
      rw [← List.mem_reverse, hrev, ← h]
      exact List.mem_cons_self b r

theorem getLast?_append_right {l₁ l₂ : Str} (h : l₂ ≠ []) :
    (l₁ ++ l₂).getLast? = l₂.getLast? := by
  rw [← List.head?_reverse, ← List.head?_reverse, List.reverse_append]
  cases hrev : l₂.reverse with
  | nil => exact absurd (by simpa using hrev) h
  | cons b r => rw [List.cons_append]; rfl

/-- `replace('&', 'and')` is the identity on ampersand-free strings. -/
theorem flatMap_ampRep_id : ∀ (l : Str), (∀ c ∈ l, c ≠ '&') →
    l.flatMap ampRep = l := by
  intro l
  induction l with
  | nil => intro _; rfl
  | cons c l' ih =>
      intro h
      show ampRep c ++ l'.flatMap ampRep = c :: l'
      rw [show ampRep c = [c] from by
        rw [ampRep, if_neg]; simpa using h c (by simp)]
      rw [List.singleton_append, ih (fun d hd => h d (by simp [hd]))]

-- ---------------------------------------------------------------------------
-- Claim C5 machinery, part 4: pulling occurrences back through
-- `replace('&', 'and')`
-- ---------------------------------------------------------------------------

/-- A word-character run that starts an occurrence in the replaced string,
whose lower-casing avoids the infix `an`, is a literal prefix of the
original string. -/
theorem ampFlat_pull : ∀ (zs : Str) (e : Char) (code₁ post : Str),
    zs.flatMap ampRep = (e :: code₁) ++ post →
    ¬ (['a', 'n'] <:+: (e :: code₁).map pyLower) →
    nonWordHead post = true →
    ∃ post', zs = (e :: code₁) ++ post' ∧ nonWordHead post' = true := by
  intro zs
  induction zs with
  | nil =>
      intro e code₁ post h _ _
      exact absurd h.symm (by simp)
  | cons z zs' ih =>
      intro e code₁ post h han hpost
      by_cases hz : z = '&'
      · subst hz
        have h' : 'a' :: 'n' :: 'd' :: zs'.flatMap ampRep
            = e :: (code₁ ++ post) := h
        rw [List.cons.injEq] at h'
        obtain ⟨rfl, h2⟩ := h'
        cases code₁ with
        | nil =>
            rw [List.nil_append] at h2
            rw [← h2] at hpost
            simp only [nonWordHead, List.head?_cons] at hpost
            exact absurd hpost (by decide)
        | cons e₂ code₂ =>
            rw [List.cons_append, List.cons.injEq] at h2
            obtain ⟨rfl, -⟩ := h2
            exfalso
            refine han (List.IsPrefix.isInfix ⟨code₂.map pyLower, ?_⟩)
            have hpa : pyLower 'a' = 'a' := by decide
            have hpn : pyLower 'n' = 'n' := by decide
            rw [List.map_cons, List.map_cons, hpa, hpn]
            rfl
      · have h' : ampRep z ++ zs'.flatMap ampRep = (e :: code₁) ++ post := h
        have hz2 : ampRep z = [z] := by
          rw [ampRep, if_neg]
          simpa using hz
        rw [hz2, List.singleton_append, List.cons_append, List.cons.injEq] at h'
        obtain ⟨rfl, h2⟩ := h'
        cases code₁ with
        | nil =>
            refine ⟨zs', rfl, ?_⟩
            rw [List.nil_append] at h2
            cases zs' with
            | nil => decide
            | cons w ws =>
                by_cases hw : w = '&'
                · subst hw
                  have h9 : nonWordHead (('&' :: ws).flatMap ampRep) = true := by
                    rw [h2]; exact hpost
                  have h10 : nonWordHead ('a' :: 'n' :: 'd' :: ws.flatMap ampRep)
                      = true := h9
                  simp only [nonWordHead, List.head?_cons] at h10
                  exact absurd h10 (by decide)
                · have hw2 : ampRep w = [w] := by
                    rw [ampRep, if_neg]
                    simpa using hw
                  have h9 : nonWordHead ((w :: ws).flatMap ampRep) = true := by
                    rw [h2]; exact hpost
                  have h10 : nonWordHead (ampRep w ++ ws.flatMap ampRep)
                      = true := h9
                  rw [hw2, List.singleton_append] at h10
                  simp only [nonWordHead, List.head?_cons] at h10 ⊢
                  exact h10
        | cons e₂ code₂ =>
            have han2 : ¬ (['a', 'n'] <:+: (e₂ :: code₂).map pyLower) := by
              intro hinf
              exact han (hinf.trans (List.IsSuffix.isInfix ⟨[pyLower z], rfl⟩))
            obtain ⟨post', hp1, hp2⟩ := ih e₂ code₂ post h2 han2 hpost
            refine ⟨post', ?_, hp2⟩
            rw [List.cons_append, ← hp1]

/-- Any word-bounded occurrence in `replace('&', 'and')`'s output pulls
back to one in its input. -/
theorem ampFlat_occ_pull : ∀ (zs : Str) (p : Bool),
    BoundedOcc kwList p (zs.flatMap ampRep) → BoundedOcc kwList p zs := by
  intro zs
  induction zs with
  | nil => intro p h; exact h
  | cons z zs' ih =>
      intro p h
      by_cases hz : z = '&'
      · subst hz
        have h' : BoundedOcc kwList p ('a' :: 'n' :: 'd' :: zs'.flatMap ampRep) :=
          h
        rcases boundedOcc_cons_elim h' with
          ⟨-, kw, code, post2, hmem, heq, hmap, -⟩ | h2
        · cases code with
          | nil =>
              rw [List.map_nil] at hmap
              exact absurd hmap.symm (kwList_ne_nil kw hmem)
          | cons c0 code' =>
              simp only [List.cons_append, List.cons.injEq] at heq
              have hkh : kw.head? = some 'a' := by
                rw [← hmap, List.map_cons, List.head?_cons, ← heq.1]
                decide
              exact absurd hkh (kwList_head kw hmem).1
        · rw [show isWordChar 'a' = true from by decide] at h2
          rcases boundedOcc_cons_elim h2 with ⟨hq, -⟩ | h3
          · exact absurd hq (by decide)
          · rw [show isWordChar 'n' = true from by decide] at h3
            rcases boundedOcc_cons_elim h3 with ⟨hq, -⟩ | h4
            · exact absurd hq (by decide)
            · rw [show isWordChar 'd' = true from by decide] at h4
              have h5 := boundedOcc_flag (ih true h4)
              have h6 : BoundedOcc kwList (isWordChar '&') zs' := by
                rw [show isWordChar '&' = false from by decide]
                exact h5
              exact boundedOcc_cons p h6
      · have hz2 : ampRep z = [z] := by
          rw [ampRep, if_neg]
          simpa using hz
        have h' : BoundedOcc kwList p (ampRep z ++ zs'.flatMap ampRep) := h
        rw [hz2, List.singleton_append] at h'
        rcases boundedOcc_cons_elim h' with
          ⟨hq, kw, code, post2, hmem, heq, hmap, hR⟩ | h2
        · subst hq
          cases code with
          | nil =>
              rw [List.map_nil] at hmap
              exact absurd hmap.symm (kwList_ne_nil kw hmem)
          | cons c0 code' =>
              have hflat : (z :: zs').flatMap ampRep = (c0 :: code') ++ post2 := by
                show ampRep z ++ zs'.flatMap ampRep = (c0 :: code') ++ post2
                rw [hz2, List.singleton_append]
                exact heq
              have han : ¬ (['a', 'n'] <:+: (c0 :: code').map pyLower) := by
                rw [hmap]
                exact kwList_no_an kw hmem
              obtain ⟨post', hp1, hp2⟩ :=
                ampFlat_pull (z :: zs') c0 code' post2 hflat han hR
              exact ⟨kw, [], c0 :: code', post', hmem,
                by rw [List.nil_append, hp1], hmap, by decide, hp2⟩
        · exact boundedOcc_cons p (ih (isWordChar z) h2)

-- ---------------------------------------------------------------------------
-- Claim C5 machinery, part 5: pulling occurrences back through the
-- punctuation substitution
-- ---------------------------------------------------------------------------

theorem map_punct_occ_pull (zs : Str) (p : Bool)
    (h : BoundedOcc kwList p (zs.map punctSp)) : BoundedOcc kwList p zs := by
  obtain ⟨kw, pre, code, post, hmem, heq, hmap, hL, hR⟩ := h
  obtain ⟨u, v, rfl, hu, hv⟩ := map_split zs (pre ++ code) post heq
  obtain ⟨u1, u2, rfl, hu1, hu2⟩ := map_split u pre code hu
  have hword2 : ∀ ch ∈ code, isWordChar ch = true :=
    code_word_of_map hmap (kwList_word kw hmem)
  have hu2w : ∀ ch ∈ u2, isWordChar ch = true := by
    intro ch hch
    rw [← punctSp_word ch]
    exact hword2 (punctSp ch) (by rw [← hu2]; exact List.mem_map_of_mem punctSp hch)
  have hmap2 : u2.map pyLower = kw := by
    rw [← hmap, ← hu2, List.map_map]
    apply map_congr_mem
    intro a ha
    show pyLower a = pyLower (punctSp a)
    rw [punctSp_fix (hu2w a ha)]
  refine ⟨kw, u1, u2, v, hmem, rfl, hmap2, ?_, ?_⟩
  · rcases List.eq_nil_or_concat u1 with rfl | ⟨u1', a, rfl⟩
    · rw [← hu1] at hL
      exact hL
    · rw [List.concat_eq_append]
      rw [List.concat_eq_append, List.map_append] at hu1
      have hgl : pre.getLast? = some (punctSp a) := by
        rw [← hu1, getLast?_append_right (by simp)]
        rfl
      have hla : isWordChar (punctSp a) = false := by
        have h9 := hL
        simp only [nonWordLast, hgl] at h9
        simpa using h9
      have haw : isWordChar a = false := by
        rw [← punctSp_word a]
        exact hla
      have hgl2 : (u1' ++ [a]).getLast? = some a := by
        rw [getLast?_append_right (show ([a] : Str) ≠ [] from by simp)]
        rfl
      simp only [nonWordLast, hgl2]
      rw [haw]
      rfl
  · cases v with
    | nil => decide
    | cons b v' =>
        rw [List.map_cons] at hv
        have hhd : post.head? = some (punctSp b) := by
          rw [← hv]
          rfl
        have h9 := hR
        simp only [nonWordHead, hhd] at h9
        have hbw : isWordChar b = false := by
          rw [← punctSp_word b]
          simpa using h9
        simp only [nonWordHead, List.head?_cons]
        rw [hbw]
        rfl

-- ---------------------------------------------------------------------------
-- Claim C5 machinery, part 6: `str.split()` and `' '.join(...)`
-- ---------------------------------------------------------------------------

theorem splitWords_cons (c : Char) (rest : Str) :
    splitWords (c :: rest) =
      if isSpc c then splitWords rest
      else
        match rest, splitWords rest with
        | d :: _, w :: ws => if isSpc d then [c] :: w :: ws else (c :: w) :: ws
        | _, _ => [[c]] := rfl

theorem splitWords_space (c : Char) (rest : Str) (h : isSpc c = true) :
    splitWords (c :: rest) = splitWords rest := by
  rw [splitWords_cons, if_pos h]

theorem splitWords_single (c : Char) (h : isSpc c = false) :
    splitWords [c] = [[c]] := by
  rw [splitWords_cons, if_neg (by simp [h])]

theorem splitWords_ne_nil {d : Char} (rest : Str) (hd : isSpc d = false) :
    splitWords (d :: rest) ≠ [] := by
  rw [splitWords_cons, if_neg (by simp [hd])]
  cases rest with
  | nil => simp
  | cons e rest' =>
      cases hsr : splitWords (e :: rest') with
      | nil => simp
      | cons w ws =>
          show (if isSpc e then [d] :: w :: ws else (d :: w) :: ws) ≠ []
          by_cases he : isSpc e = true
          · rw [if_pos he]; simp
          · rw [if_neg he]; simp

theorem splitWords_cons2_sp (c d : Char) (rest : Str) (hc : isSpc c = false)
    (hd : isSpc d = true) :
    splitWords (c :: d :: rest) = [c] :: splitWords (d :: rest) := by
  rw [splitWords_cons, if_neg (by simp [hc])]
  cases hsr : splitWords (d :: rest) with
  | nil => rfl
  | cons w ws =>
      show (if isSpc d then [c] :: w :: ws else (c :: w) :: ws) = [c] :: w :: ws
      rw [if_pos hd]

theorem splitWords_cons2_w (c d : Char) (rest : Str) (hc : isSpc c = false)
    (hd : isSpc d = false) :
    ∃ w ws, splitWords (d :: rest) = w :: ws ∧
      splitWords (c :: d :: rest) = (c :: w) :: ws := by
  cases hsr : splitWords (d :: rest) with
  | nil => exact absurd hsr (splitWords_ne_nil rest hd)
  | cons w ws =>
      refine ⟨w, ws, rfl, ?_⟩
      rw [splitWords_cons, if_neg (by simp [hc]), hsr]
      show (if isSpc d then [c] :: w :: ws else (c :: w) :: ws) = (c :: w) :: ws
      rw [if_neg (by simp [hd])]

/-- Every word produced by `split()` is non-empty and whitespace-free. -/
theorem splitWords_good : ∀ (s : Str), ∀ w ∈ splitWords s,
    w ≠ [] ∧ ∀ ch ∈ w, isSpc ch = false := by
  intro s
  induction s with
  | nil => intro w hw; exact absurd hw (List.not_mem_nil w)
  | cons c rest ih =>
      by_cases hc : isSpc c = true
      · rw [splitWords_space c rest hc]
        exact ih
      · rw [Bool.not_eq_true] at hc
        cases rest with
        | nil =>
            rw [splitWords_single c hc]
            intro w hw
            rw [List.mem_singleton] at hw
            subst hw
            refine ⟨by simp, ?_⟩
            intro ch hch
            rw [List.mem_singleton] at hch
            subst hch
            exact hc
        | cons d rest' =>
            by_cases hd : isSpc d = true
            · rw [splitWords_cons2_sp c d rest' hc hd]
              intro w hw
              rcases List.mem_cons.mp hw with rfl | hw2
              · refine ⟨by simp, ?_⟩
                intro ch hch
                rw [List.mem_singleton] at hch
                subst hch
                exact hc
              · exact ih w hw2
            · rw [Bool.not_eq_true] at hd
              obtain ⟨w0, ws0, hsr, heq⟩ := splitWords_cons2_w c d rest' hc hd
              rw [heq]
              intro w hw
              rcases List.mem_cons.mp hw with rfl | hw2
              · have h0 := ih w0 (by rw [hsr]; simp)
                refine ⟨by simp, ?_⟩
                intro ch hch
                rcases List.mem_cons.mp hch with rfl | hch2
                · exact hc
                · exact h0.2 ch hch2
              · exact ih w (by rw [hsr]; simp [hw2])

/-- A non-empty whitespace-free word followed by a space splits off. -/
theorem splitWords_word_sp : ∀ (w : Str) (t : Str), w ≠ [] →
    (∀ ch ∈ w, isSpc ch = false) →
    splitWords (w ++ ' ' :: t) = w :: splitWords t := by
  intro w
  induction w with
  | nil => intro t h _; exact absurd rfl h
  | cons c w' ih =>
      intro t _ hch
      have hc : isSpc c = false := hch c (by simp)
      cases w' with
      | nil =>
          rw [List.cons_append, List.nil_append]
          rw [splitWords_cons2_sp c ' ' t hc (by decide)]
          rw [splitWords_space ' ' t (by decide)]
      | cons e w'' =>
          have he : isSpc e = false := hch e (by simp)
          rw [List.cons_append, List.cons_append]
          obtain ⟨w0, ws0, hsr, heq⟩ :=
            splitWords_cons2_w c e (w'' ++ ' ' :: t) hc he
          rw [heq]
          have hih := ih t (by simp) (fun ch h2 => hch ch (by simp [h2]))
          rw [List.cons_append] at hih
          rw [hih, List.cons.injEq] at hsr
          rw [← hsr.1, ← hsr.2]

/-- A non-empty whitespace-free string is a single word. -/
theorem splitWords_word : ∀ (w : Str), w ≠ [] →
    (∀ ch ∈ w, isSpc ch = false) → splitWords w = [w] := by
  intro w
  induction w with
  | nil => intro h _; exact absurd rfl h
  | cons c w' ih =>
      intro _ hch
      have hc : isSpc c = false := hch c (by simp)
      cases w' with
      | nil => exact splitWords_single c hc
      | cons e w'' =>
          have he : isSpc e = false := hch e (by simp)
          obtain ⟨w0, ws0, hsr, heq⟩ := splitWords_cons2_w c e w'' hc he
          rw [heq]
          rw [ih (by simp) (fun ch h2 => hch ch (by simp [h2])),
            List.cons.injEq] at hsr
          rw [← hsr.1, ← hsr.2]

/-- `split` is a left inverse of `' '.join` on lists of good words. -/
theorem splitWords_joinWords : ∀ (ws : List Str),
    (∀ w ∈ ws, w ≠ [] ∧ ∀ ch ∈ w, isSpc ch = false) →
    splitWords (joinWords ws) = ws := by
  intro ws
  induction ws with
  | nil => intro _; rfl
  | cons w ws' ih =>
      intro hg
      cases ws' with
      | nil =>
          show splitWords w = [w]
          exact splitWords_word w (hg w (by simp)).1 (hg w (by simp)).2
      | cons w2 ws'' =>
          show splitWords (w ++ ' ' :: joinWords (w2 :: ws'')) = w :: w2 :: ws''
          rw [splitWords_word_sp w (joinWords (w2 :: ws'')) (hg w (by simp)).1
            (hg w (by simp)).2]
          rw [ih (fun w3 h3 => hg w3 (by simp [h3]))]

-- ---------------------------------------------------------------------------
-- Claim C5 machinery, part 7: word flanks and occurrence localization
-- ---------------------------------------------------------------------------

/-- A string with a non-whitespace head starts with its first word. -/
theorem splitWords_head_flank : ∀ (rest : Str) (c : Char), isSpc c = false →
    ∃ w0 r, splitWords (c :: rest) = w0 :: splitWords r ∧ c :: rest = w0 ++ r ∧
      (∀ ch, r.head? = some ch → isSpc ch = true) ∧ r.length ≤ rest.length := by
  intro rest
  induction rest with
  | nil =>
      intro c hc
      exact ⟨[c], [], by rw [splitWords_single c hc]; rfl, rfl, by simp, by simp⟩
  | cons d rest' ih =>
      intro c hc
      by_cases hd : isSpc d = true
      · refine ⟨[c], d :: rest', splitWords_cons2_sp c d rest' hc hd, rfl, ?_,
          by simp⟩
        intro ch hch
        rw [List.head?_cons, Option.some.injEq] at hch
        rw [← hch]
        exact hd
      · rw [Bool.not_eq_true] at hd
        obtain ⟨w0', r, hs1, hs2, hprop, hlen⟩ := ih d hd
        obtain ⟨w0, ws0, hsr, heqs⟩ := splitWords_cons2_w c d rest' hc hd
        rw [hs1, List.cons.injEq] at hsr
        refine ⟨c :: w0', r, ?_, ?_, hprop, ?_⟩
        · rw [heqs, ← hsr.1, ← hsr.2]
        · rw [List.cons_append, ← hs2]
        · simp only [List.length_cons]
          omega

/-- Every word of `split()` occurs in the string, flanked by whitespace
(or a string end) on both sides. -/
theorem splitWords_flank : ∀ (n : ℕ) (s : Str), s.length ≤ n →
    ∀ w, w ∈ splitWords s →
    ∃ l r, s = (l ++ w) ++ r ∧
      (∀ ch, l.getLast? = some ch → isSpc ch = true) ∧
      (∀ ch, r.head? = some ch → isSpc ch = true) := by
  intro n
  induction n with
  | zero =>
      intro s hlen w hw
      rw [List.length_eq_zero.mp (Nat.le_zero.mp hlen)] at hw
      exact absurd hw (List.not_mem_nil w)
  | succ n ih =>
      intro s hlen w hw
      cases s with
      | nil => exact absurd hw (List.not_mem_nil w)
      | cons c rest =>
          rw [List.length_cons] at hlen
          by_cases hc : isSpc c = true
          · rw [splitWords_space c rest hc] at hw
            obtain ⟨l, r, heq, hl, hr⟩ := ih rest (by omega) w hw
            refine ⟨c :: l, r, by rw [heq]; simp, ?_, hr⟩
            intro ch hch
            cases l with
            | nil =>
                rw [List.getLast?_singleton, Option.some.injEq] at hch
                rw [← hch]
                exact hc
            | cons a l' =>
                rw [List.getLast?_cons_cons] at hch
                exact hl ch hch
          · rw [Bool.not_eq_true] at hc
            obtain ⟨w0, r, hs1, hs2, hprop, hlen2⟩ :=
              splitWords_head_flank rest c hc
            rw [hs1] at hw
            rcases List.mem_cons.mp hw with rfl | hw2
            · exact ⟨[], r, by rw [List.nil_append]; exact hs2, by simp, hprop⟩
            · obtain ⟨l, r₂, heq, hl, hr⟩ := ih r (by omega) w hw2
              cases l with
              | nil =>
                  exfalso
                  obtain ⟨hwne, hwch⟩ := splitWords_good r w hw2
                  cases w with
                  | nil => exact hwne rfl
                  | cons wh w' =>
                      rw [List.nil_append, List.cons_append] at heq
                      have h9 := hprop wh (by rw [heq]; rfl)
                      rw [hwch wh (by simp)] at h9
                      exact absurd h9 (by decide)
              | cons a l' =>
                  refine ⟨w0 ++ a :: l', r₂, ?_, ?_, hr⟩
                  · rw [hs2, heq]
                    simp [List.append_assoc]
                  · intro ch hch
                    rw [getLast?_append_right (by simp)] at hch
                    exact hl ch hch

/-- Chars of a word of `split()` are chars of the string. -/
theorem mem_word_mem (s : Str) (w : Str) (hw : w ∈ splitWords s) :
    ∀ c ∈ w, c ∈ s := by
  obtain ⟨l, r, heq, -, -⟩ := splitWords_flank s.length s (le_refl _) w hw
  intro c hc
  rw [heq]
  simp [hc]

theorem joinWords_ne_nil : ∀ (ws : List Str), ws ≠ [] → (∀ w ∈ ws, w ≠ []) →
    joinWords ws ≠ [] := by
  intro ws
  cases ws with
  | nil => intro h _; exact absurd rfl h
  | cons w ws' =>
      intro _ hne
      cases ws' with
      | nil => exact hne w (by simp)
      | cons w2 ws'' =>
          show w ++ ' ' :: joinWords (w2 :: ws'') ≠ []
          simp

theorem joinWords_head (w : Str) (ws : List Str) (hne : w ≠ []) :
    (joinWords (w :: ws)).head? = w.head? := by
  cases ws with
  | nil => rfl
  | cons w2 ws' =>
      show (w ++ ' ' :: joinWords (w2 :: ws')).head? = w.head?
      cases w with
      | nil => exact absurd rfl hne
      | cons c w' => rw [List.cons_append]; rfl

theorem joinWords_last : ∀ (ws : List Str), ws ≠ [] → (∀ w ∈ ws, w ≠ []) →
    ∃ w ∈ ws, (joinWords ws).getLast? = w.getLast? := by
  intro ws
  induction ws with
  | nil => intro h _; exact absurd rfl h
  | cons w ws' ih =>
      intro _ hne
      cases ws' with
      | nil => exact ⟨w, by simp, rfl⟩
      | cons w2 ws'' =>
          obtain ⟨w', hm, hl⟩ := ih (by simp) (fun v hv => hne v (by simp [hv]))
          refine ⟨w', by simp [hm], ?_⟩
          show (w ++ ' ' :: joinWords (w2 :: ws'')).getLast? = w'.getLast?
          rw [getLast?_append_right (by simp)]
          have hjne : joinWords (w2 :: ws'') ≠ [] :=
            joinWords_ne_nil (w2 :: ws'') (by simp)
              (fun v hv => hne v (by simp [hv]))
          rw [show (' ' :: joinWords (w2 :: ws''))
            = [' '] ++ joinWords (w2 :: ws'') from rfl]
          rw [getLast?_append_right hjne]
          exact hl

theorem mem_joinWords : ∀ (ws : List Str) (c : Char), c ∈ joinWords ws →
    c = ' ' ∨ ∃ w ∈ ws, c ∈ w := by
  intro ws
  induction ws with
  | nil => intro c hc; exact absurd hc (List.not_mem_nil c)
  | cons w ws' ih =>
      intro c hc
      cases ws' with
      | nil => exact Or.inr ⟨w, by simp, hc⟩
      | cons w2 ws'' =>
          have hc' : c ∈ w ++ ' ' :: joinWords (w2 :: ws'') := hc
          rcases List.mem_append.mp hc' with h1 | h1
          · exact Or.inr ⟨w, by simp, h1⟩
          · rcases List.mem_cons.mp h1 with rfl | h2
            · exact Or.inl rfl
            · rcases ih c h2 with h3 | ⟨w', hm, hmw⟩
              · exact Or.inl h3
              · exact Or.inr ⟨w', by simp [hm], hmw⟩

/-- `strip()` is the identity when both ends are non-whitespace. -/
theorem pyStrip_eq_self (s : Str)
    (hh : ∀ c, s.head? = some c → isSpc c = false)
    (hl : ∀ c, s.getLast? = some c → isSpc c = false) : pyStrip s = s := by
  rw [pyStrip]
  cases s with
  | nil => rfl
  | cons c s' =>
      have hc := hh c rfl
      rw [List.dropWhile_cons, hc, if_neg (by simp)]
      rcases hrev : (c :: s').reverse with _ | ⟨b, r'⟩
      · exact absurd hrev (by simp)
      · have hb : isSpc b = false := by
          apply hl
          rw [← List.head?_reverse, hrev]
          rfl
        rw [List.dropWhile_cons, hb, if_neg (by simp)]
        rw [← hrev, List.reverse_reverse]

-- ---------------------------------------------------------------------------
-- Claim C5 machinery, part 8: occurrences across a non-word separator
-- ---------------------------------------------------------------------------

/-- A word-character run cannot reach past a non-word character. -/
theorem word_code_split : ∀ (code xs ys : Str) (c : Char),
    isWordChar c = false → (∀ ch ∈ code, isWordChar ch = true) →
    ∀ post, xs ++ c :: ys = code ++ post →
    ∃ post₁, xs = code ++ post₁ ∧ post = post₁ ++ c :: ys := by
  intro code
  induction code with
  | nil =>
      intro xs ys c _ _ post h
      exact ⟨xs, rfl, h.symm⟩
  | cons e code' ih =>
      intro xs ys c hc hw post h
      cases xs with
      | nil =>
          rw [List.nil_append, List.cons_append, List.cons.injEq] at h
          rw [h.1] at hc
          rw [hw e (by simp)] at hc
          exact absurd hc (by decide)
      | cons b xs' =>
          rw [List.cons_append, List.cons_append, List.cons.injEq] at h
          obtain ⟨rfl, h2⟩ := h
          obtain ⟨post₁, hp1, hp2⟩ :=
            ih xs' ys c hc (fun ch h3 => hw ch (by simp [h3])) post h2
          exact ⟨post₁, by rw [List.cons_append, hp1], hp2⟩

/-- An occurrence in `xs ++ c :: ys`, with `c` not a word character, lies
entirely in `xs` or entirely in `ys`. -/
theorem boundedOcc_sep_elim : ∀ (xs : Str) (p : Bool) (c : Char) (ys : Str),
    isWordChar c = false →
    BoundedOcc kwList p (xs ++ c :: ys) →
    BoundedOcc kwList p xs ∨ BoundedOcc kwList false ys := by
  intro xs
  induction xs with
  | nil =>
      intro p c ys hc h
      rw [List.nil_append] at h
      rcases boundedOcc_cons_elim h with
        ⟨-, kw, code, post, hmem, heq, hmap, -⟩ | h2
      · cases code with
        | nil =>
            rw [List.map_nil] at hmap
            exact absurd hmap.symm (kwList_ne_nil kw hmem)
        | cons e code' =>
            simp only [List.cons_append, List.cons.injEq] at heq
            have hwe : isWordChar e = true :=
              code_word_of_map hmap (kwList_word kw hmem) e (by simp)
            rw [← heq.1] at hwe
            rw [hc] at hwe
            exact absurd hwe (by decide)
      · right
        rw [hc] at h2
        exact h2
  | cons a xs' ih =>
      intro p c ys hc h
      rw [List.cons_append] at h
      rcases boundedOcc_cons_elim h with
        ⟨hq, kw, code, post, hmem, heq, hmap, hR⟩ | h2
      · subst hq
        cases code with
        | nil =>
            rw [List.map_nil] at hmap
            exact absurd hmap.symm (kwList_ne_nil kw hmem)
        | cons e code' =>
            have hw := code_word_of_map hmap (kwList_word kw hmem)
            obtain ⟨post₁, hp1, hp2⟩ := word_code_split (e :: code') (a :: xs')
              ys c hc hw post (by rw [List.cons_append]; exact heq)
            left
            refine ⟨kw, [], e :: code', post₁, hmem,
              by rw [List.nil_append]; exact hp1, hmap, by decide, ?_⟩
            cases post₁ with
            | nil => decide
            | cons d p' =>
                rw [hp2, List.cons_append] at hR
                simp only [nonWordHead, List.head?_cons] at hR ⊢
                exact hR
      · rcases ih (isWordChar a) c ys hc h2 with h3 | h3
        · left
          exact boundedOcc_cons p h3
        · right
          exact h3

/-- An occurrence in `' '.join(ws)` localizes to one of the words. -/
theorem joinWords_occ : ∀ (ws : List Str) (p : Bool),
    BoundedOcc kwList p (joinWords ws) →
    ∃ w ∈ ws, BoundedOcc kwList false w := by
  intro ws
  induction ws with
  | nil => intro p h; exact absurd h (boundedOcc_nil kwList_ne_nil)
  | cons w ws' ih =>
      intro p h
      cases ws' with
      | nil => exact ⟨w, by simp, boundedOcc_flag h⟩
      | cons w2 ws'' =>
          have h' : BoundedOcc kwList p (w ++ ' ' :: joinWords (w2 :: ws'')) := h
          rcases boundedOcc_sep_elim w p ' ' (joinWords (w2 :: ws''))
            (by decide) h' with h3 | h3
          · exact ⟨w, by simp, boundedOcc_flag h3⟩
          · obtain ⟨w', hm, hb⟩ := ih false h3
            exact ⟨w', by simp [hm], hb⟩

/-- An occurrence in a word of `split()` gives one in the whole string. -/
theorem flank_occ (s w : Str) (hw : w ∈ splitWords s)
    (h : BoundedOcc kwList false w) : BoundedOcc kwList false s := by
  obtain ⟨l, r, heq, hl, hr⟩ := splitWords_flank s.length s (le_refl _) w hw
  obtain ⟨kw, pre, code, post, hmem, heqo, hmap, hL, hR⟩ := h
  refine ⟨kw, l ++ pre, code, post ++ r, hmem, ?_, hmap, ?_, ?_⟩
  · rw [heq, heqo]
    simp [List.append_assoc]
  · rcases List.eq_nil_or_concat pre with rfl | ⟨pre', a, rfl⟩
    · rw [List.append_nil]
      cases hgl : l.getLast? with
      | none => simp only [nonWordLast, hgl]; rfl
      | some ch =>
          simp only [nonWordLast, hgl]
          rw [spc_not_word (hl ch hgl)]
          rfl
    · rw [List.concat_eq_append] at hL ⊢
      rw [← List.append_assoc]
      have hga : (pre' ++ [a]).getLast? = some a := by
        rw [getLast?_append_right (show ([a] : Str) ≠ [] from by simp)]
        rfl
      have hgla : ((l ++ pre') ++ [a]).getLast? = some a := by
        rw [getLast?_append_right (show ([a] : Str) ≠ [] from by simp)]
        rfl
      simp only [nonWordLast, hga] at hL
      simp only [nonWordLast, hgla]
      exact hL
  · cases post with
    | nil =>
        rw [List.nil_append]
        cases hgr : r.head? with
        | none => simp only [nonWordHead, hgr]
        | some ch =>
            simp only [nonWordHead, hgr]
            rw [spc_not_word (hr ch hgr)]
            rfl
    | cons d post' =>
        rw [List.cons_append]
        simp only [nonWordHead, List.head?_cons] at hR ⊢
        exact hR

/-- Claim C5: `clean_company_name` is idempotent — whenever a (necessarily
non-empty) input cleans to a non-empty result `y`, cleaning `y` again
returns `y` unchanged. -/
theorem C5_clean_idempotent (cs y : Str)
    (h : clean_company_name cs = some y) : clean_company_name y = some y := by
  have hemp : cs.isEmpty = false := by
    cases he : cs.isEmpty
    · rfl
    · rw [clean_company_name, if_pos he] at h
      cases h
  rw [clean_company_name, if_neg (by rw [hemp]; simp)] at h
  have h2 : (if (pyStrip (joinWords (splitWords (((suffixSub cs).flatMap
      ampRep).map punctSp)))).isEmpty = true then (none : Option Str)
      else some (pyStrip (joinWords (splitWords (((suffixSub cs).flatMap
        ampRep).map punctSp))))) = some y := h
  have hout : (pyStrip (joinWords (splitWords (((suffixSub cs).flatMap
      ampRep).map punctSp)))).isEmpty = false := by
    cases he : (pyStrip (joinWords (splitWords (((suffixSub cs).flatMap
        ampRep).map punctSp)))).isEmpty
    · rfl
    · rw [if_pos he] at h2
      cases h2
  rw [if_neg (by rw [hout]; simp)] at h2
  have hy : pyStrip (joinWords (splitWords (((suffixSub cs).flatMap
      ampRep).map punctSp))) = y := Option.some.inj h2
  have hgood := splitWords_good (((suffixSub cs).flatMap ampRep).map punctSp)
  cases hws : splitWords (((suffixSub cs).flatMap ampRep).map punctSp) with
  | nil =>
      rw [hws] at hout
      exact absurd hout (by decide)
  | cons w1 ws' =>
      rw [hws] at hy hgood
      have hwne : ∀ w ∈ w1 :: ws', w ≠ [] := fun w hw => (hgood w hw).1
      have hstrip : pyStrip (joinWords (w1 :: ws')) = joinWords (w1 :: ws') := by
        apply pyStrip_eq_self
        · intro c hc
          rw [joinWords_head w1 ws' (hwne w1 (by simp))] at hc
          exact (hgood w1 (by simp)).2 c (mem_of_head hc)
        · intro c hc
          obtain ⟨w', hm, hl⟩ := joinWords_last (w1 :: ws') (by simp) hwne
          rw [hl] at hc
          exact (hgood w' hm).2 c (mem_of_getLast hc)
      rw [hstrip] at hy
      have hyne : y ≠ [] := by
        rw [← hy]
        exact joinWords_ne_nil (w1 :: ws') (by simp) hwne
      have hnoocc : ¬ BoundedOcc kwList false y := by
        intro hocc
        rw [← hy] at hocc
        obtain ⟨w, hm, hb⟩ := joinWords_occ (w1 :: ws') false hocc
        have hb2 : BoundedOcc kwList false
            (((suffixSub cs).flatMap ampRep).map punctSp) :=
          flank_occ _ w (by rw [hws]; exact hm) hb
        have hb3 := map_punct_occ_pull _ false hb2
        have hb4 := ampFlat_occ_pull _ false hb3
        exact subAuxS_no_occ cs.length cs (le_refl _) false hb4
      have hychar : ∀ c ∈ y, c ≠ '&' ∧ punctSp c = c := by
        intro c hc
        rw [← hy] at hc
        rcases mem_joinWords (w1 :: ws') c hc with rfl | ⟨w, hm, hcw⟩
        · exact ⟨by decide, by decide⟩
        · have hcs3 : c ∈ ((suffixSub cs).flatMap ampRep).map punctSp :=
            mem_word_mem _ w (by rw [hws]; exact hm) c hcw
          obtain ⟨d, -, hd⟩ := List.mem_map.mp hcs3
          refine ⟨?_, ?_⟩
          · rw [← hd]
            exact punctSp_ne_amp d
          · rw [← hd]
            exact punctSp_idem d
      have hyemp : y.isEmpty = false := by
        cases hyv : y with
        | nil => exact absurd hyv hyne
        | cons a t => rfl
      rw [clean_company_name, if_neg (by rw [hyemp]; simp)]
      have hsuf : suffixSub y = y := subAuxS_eq_self y false hnoocc
      have hamp : y.flatMap ampRep = y :=
        flatMap_ampRep_id y (fun c hc => (hychar c hc).1)
      have hpct : y.map punctSp = y :=
        map_fix y (fun c hc => (hychar c hc).2)
      have hsplit : splitWords y = w1 :: ws' := by
        rw [← hy]
        exact splitWords_joinWords (w1 :: ws') hgood
      show (if (pyStrip (joinWords (splitWords (((suffixSub y).flatMap
          ampRep).map punctSp)))).isEmpty = true then (none : Option Str)
          else some (pyStrip (joinWords (splitWords (((suffixSub y).flatMap
            ampRep).map punctSp))))) = some y
      rw [hsuf, hamp, hpct, hsplit, hstrip, hy]
      rw [if_neg (by rw [hyemp]; simp)]

set_option maxRecDepth 40000 in
theorem C5_witness :
    clean_company_name ("A1 Towing Co".toList) = some ("A1 Towing".toList) ∧
    clean_company_name ("A1 Towing".toList) = some ("A1 Towing".toList) := by
  have h1 : clean_company_name ("A1 Towing Co".toList)
      = some ("A1 Towing".toList) := by decide
  exact ⟨h1, C5_clean_idempotent _ _ h1⟩

end DOT
